import Mathlib

/-!
# Verification of the ETRM trade app server core

Shallow embedding of `src/supabase/functions/server/index.tsx`: the CSV
parser, trade validator, upload handlers, trade query engine (filter /
sort / paginate) and the P&L valuation engine, together with proofs of
the specification claims about them.

Modelling conventions:
* JavaScript numbers are modelled as `JsFloat`: exact rationals plus the
  two infinities and NaN.  Arithmetic is exact (no binary rounding).
* JavaScript strings are modelled as Lean `String`s; the relational
  operators `<` / `<=` on strings and the default-locale `localeCompare`
  are both modelled as code-point lexicographic comparison.
* `new Date(s).getTime()` comparisons are modelled as lexicographic
  comparison of the date strings; for the `YYYY-MM-DD` dates of the data
  model chronological order and lexicographic order coincide.
* `Array.prototype.sort(cmp)` is modelled as a stable insertion sort
  driven by the comparator (the engine's sort, V8's TimSort, is stable).
* The key-value store is modelled as a `Store` record holding the two
  collections kept under the `trades` and `market_prices` keys.
* Handler-level failures (missing file, empty CSV) are modelled by
  `Option`: `none` is the early-return 400 error.
-/

namespace ETRM

/-! ## JavaScript numbers -/

/-- A JavaScript number: NaN, an infinity (`inf true` is `-Infinity`),
or a finite value, modelled as an exact rational. -/
inductive JsFloat where
  | nan : JsFloat
  | inf : Bool → JsFloat
  | num : ℚ → JsFloat
deriving DecidableEq, Repr

namespace JsFloat

/-- `Number.isNaN` / the global `isNaN` on an already-numeric value. -/
def isNaN : JsFloat → Bool
  | nan => true
  | _ => false

/-- A finite JavaScript number (neither NaN nor an infinity). -/
def isFinite : JsFloat → Bool
  | num _ => true
  | _ => false

/-- Unary minus. -/
def neg : JsFloat → JsFloat
  | nan => nan
  | inf s => inf (!s)
  | num q => num (-q)

/-- IEEE-style addition (exact on finite values). -/
def add : JsFloat → JsFloat → JsFloat
  | nan, _ => nan
  | _, nan => nan
  | inf s, inf t => if s = t then inf s else nan
  | inf s, num _ => inf s
  | num _, inf t => inf t
  | num a, num b => num (a + b)

/-- IEEE-style subtraction. -/
def sub (a b : JsFloat) : JsFloat := add a (neg b)

/-- IEEE-style multiplication (exact on finite values). -/
def mul : JsFloat → JsFloat → JsFloat
  | nan, _ => nan
  | _, nan => nan
  | inf s, inf t => inf (s != t)
  | inf s, num q => if q = 0 then nan else inf (s != decide (q < 0))
  | num q, inf t => if q = 0 then nan else inf (t != decide (q < 0))
  | num a, num b => num (a * b)

/-- JavaScript truthiness of a number: `NaN`, `0` and `-0` are falsy. -/
def truthy : JsFloat → Bool
  | nan => false
  | inf _ => true
  | num q => decide (q ≠ 0)

/-- The rational value of a finite JavaScript number (`0` otherwise). -/
def toQ : JsFloat → ℚ
  | num q => q
  | _ => 0

end JsFloat

/-- JavaScript `a || b` on numbers: `a` when truthy, else `b`. -/
def jsOr (a b : JsFloat) : JsFloat := if a.truthy then a else b

/-- Left-to-right accumulation `s += x` over a list of numbers starting
from `0`, as the handlers' loops compute it. -/
def jsSum (l : List JsFloat) : JsFloat := l.foldl JsFloat.add (JsFloat.num 0)

/-! ## JavaScript string helpers

All helpers recurse structurally on `String.data` so that every
definition evaluates inside the kernel. -/

/-- `String.prototype.split` on a one-character separator.  Splitting
the empty string yields `[""]`, as in JavaScript. -/
def splitOnChar (c : Char) : List Char → List (List Char)
  | [] => [[]]
  | x :: xs =>
    let r := splitOnChar c xs
    if x = c then [] :: r
    else
      match r with
      | [] => [[x]]
      | y :: ys => (x :: y) :: ys

/-- `s.split(c)` for a one-character separator string. -/
def jsSplit (c : Char) (s : String) : List String :=
  (splitOnChar c s.data).map String.mk

/-- Strip leading and trailing whitespace from a character list. -/
def trimList (l : List Char) : List Char :=
  ((l.dropWhile Char.isWhitespace).reverse.dropWhile Char.isWhitespace).reverse

/-- `String.prototype.trim`. -/
def jsTrim (s : String) : String := String.mk (trimList s.data)

/-- `String.prototype.toLowerCase` (ASCII case mapping). -/
def jsToLower (s : String) : String := String.mk (s.data.map Char.toLower)

/-- `String.prototype.toUpperCase` (ASCII case mapping). -/
def jsToUpper (s : String) : String := String.mk (s.data.map Char.toUpper)

/-- Does `needle` occur at the start of `hay`? -/
def hasPfx : List Char → List Char → Bool
  | [], _ => true
  | _ :: _, [] => false
  | a :: as, b :: bs => a = b && hasPfx as bs

/-- Does `needle` occur contiguously anywhere in `hay`? -/
def hasSub (needle hay : List Char) : Bool :=
  match hay with
  | [] => needle.isEmpty
  | _ :: t => hasPfx needle hay || hasSub needle t

/-- `hay.includes(needle)`. -/
def jsIncludes (hay needle : String) : Bool := hasSub needle.data hay.data

/-- Code-point comparison of characters. -/
def charLt (a b : Char) : Bool := decide (a.toNat < b.toNat)

/-- Lexicographic strict order on character lists (JavaScript `<` on
strings, restricted to code points). -/
def listLtB : List Char → List Char → Bool
  | [], [] => false
  | [], _ :: _ => true
  | _ :: _, [] => false
  | a :: as, b :: bs => charLt a b || (a = b && listLtB as bs)

/-- JavaScript `a < b` on strings. -/
def strLtB (a b : String) : Bool := listLtB a.data b.data

/-- JavaScript `a <= b` on strings. -/
def strLeB (a b : String) : Bool := !(strLtB b a)

/-- Model of `a.localeCompare(b)`: negative, zero or positive, modelled
as code-point lexicographic comparison. -/
def cmpStr (a b : String) : ℤ :=
  if strLtB a b then -1 else if a = b then 0 else 1

/-- The numeric value of a list of decimal digits. -/
def digitsToNat (l : List Char) : ℕ :=
  l.foldl (fun a c => 10 * a + (c.toNat - 48)) 0

/-- `parseFloat(s)`: skip leading whitespace, read an optional sign,
then either the literal `Infinity` or the longest decimal-number prefix
(integer part, optional fraction, optional exponent); `nan` when no
number can be read.  The value is exact (no binary rounding). -/
def jsParseFloat (s : String) : JsFloat :=
  let cs0 := s.data.dropWhile Char.isWhitespace
  let sgn : Bool × List Char :=
    match cs0 with
    | '-' :: r => (true, r)
    | '+' :: r => (false, r)
    | r => (false, r)
  let neg := sgn.1
  let cs := sgn.2
  if hasPfx "Infinity".data cs then JsFloat.inf neg
  else
    let ip := cs.takeWhile Char.isDigit
    let cs1 := cs.dropWhile Char.isDigit
    let fp : List Char × List Char :=
      match cs1 with
      | '.' :: r => (r.takeWhile Char.isDigit, r.dropWhile Char.isDigit)
      | _ => ([], cs1)
    if ip.isEmpty && fp.1.isEmpty then JsFloat.nan
    else
      let e : ℤ :=
        match fp.2 with
        | c :: r =>
          if c = 'e' || c = 'E' then
            let es : Bool × List Char :=
              match r with
              | '-' :: r2 => (true, r2)
              | '+' :: r2 => (false, r2)
              | r2 => (false, r2)
            let ed := es.2.takeWhile Char.isDigit
            if ed.isEmpty then 0
            else if es.1 then -(digitsToNat ed : ℤ) else (digitsToNat ed : ℤ)
          else 0
        | [] => 0
      let mant : ℚ := (digitsToNat ip : ℚ) + (digitsToNat fp.1 : ℚ) / (10 : ℚ) ^ fp.1.length
      let v : ℚ := mant * (10 : ℚ) ^ e
      JsFloat.num (if neg then -v else v)

/-- `parseFloat` applied to a possibly-absent field: `parseFloat(undefined)`
parses the string `"undefined"`, which is NaN. -/
def jsParseFloatOpt (v : Option String) : JsFloat :=
  match v with
  | none => JsFloat.nan
  | some s => jsParseFloat s

/-! ## CSV parser -/

/-- A parsed CSV row: the property assignments `row[header] = values[i]`
in assignment order.  A value is `none` when the data line is shorter
than the header (`values[i]` is `undefined`). -/
abbrev Row := List (String × Option String)

/-- Property lookup on a row object: the last assignment to a key wins,
as for a JavaScript object; an absent key reads as `undefined`. -/
def rowGet (r : Row) (k : String) : Option String :=
  match r.reverse.find? (fun p => p.1 = k) with
  | some p => p.2
  | none => none

/-- `parseCSV` (index.tsx lines 18-35): trim the text, split on newlines,
take the first line as the comma-separated header (fields trimmed), and
map every later line positionally onto the header names (values
trimmed).  Fewer than two lines yield the empty sequence. -/
def parseCSV (csvText : String) : List Row :=
  match jsSplit '\n' (jsTrim csvText) with
  | [] => []
  | [_] => []
  | header :: rest =>
    let headers := (jsSplit ',' header).map jsTrim
    rest.map (fun line =>
      let values := (jsSplit ',' line).map jsTrim
      headers.enum.map (fun p => (p.2, values.get? p.1)))

/-! ## Trade validation and normalization -/

/-- JavaScript truthiness of a string-or-undefined field: `undefined`
and the empty string are falsy. -/
def present (v : Option String) : Bool :=
  match v with
  | none => false
  | some s => !s.isEmpty

/-- JavaScript `x || d` for a string-or-undefined `x` with default `d`. -/
def orDefault (v : Option String) (d : String) : String :=
  match v with
  | none => d
  | some s => if s.isEmpty then d else s

/-- The result shape of `validateTrade`. -/
structure ValidationResult where
  valid : Bool
  errors : List String
deriving DecidableEq, Repr

/-- `validateTrade` (index.tsx lines 38-55): the six independent checks,
each pushing one error string; `valid` iff no error was pushed.  The
`side` and numeric checks guard the method call / `parseFloat` behind
the truthiness test exactly as the source's `||` does. -/
def validateTrade (trade : Row) : ValidationResult :=
  let errors : List String :=
    (if !present (rowGet trade "trade_id") then ["trade_id is required"] else []) ++
    (if !present (rowGet trade "trade_date") then ["trade_date is required"] else []) ++
    (if !present (rowGet trade "instrument") then ["instrument is required"] else []) ++
    (if (match rowGet trade "side" with
         | none => true
         | some s => s.isEmpty || !(["BUY", "SELL"].contains (jsToUpper s)))
     then ["side must be BUY or SELL"] else []) ++
    (if (match rowGet trade "quantity" with
         | none => true
         | some s => s.isEmpty || (jsParseFloat s).isNaN)
     then ["quantity must be a valid number"] else []) ++
    (if (match rowGet trade "trade_price" with
         | none => true
         | some s => s.isEmpty || (jsParseFloat s).isNaN)
     then ["trade_price must be a valid number"] else [])
  { valid := errors.isEmpty, errors := errors }

/-- A stored (normalized) trade record. -/
structure Trade where
  trade_id : String
  trade_date : String
  trader : String
  instrument : String
  side : String
  quantity : JsFloat
  trade_price : JsFloat
  currency : String
deriving DecidableEq, Repr

/-- The normalized record built from a valid row (index.tsx lines
85-94).  On a valid row every `getD ""` default is dead: validation
guarantees the field is a present, non-empty string. -/
def normalizeTrade (row : Row) : Trade :=
  { trade_id := (rowGet row "trade_id").getD ""
    trade_date := (rowGet row "trade_date").getD ""
    trader := orDefault (rowGet row "trader") "Unknown"
    instrument := (rowGet row "instrument").getD ""
    side := jsToUpper ((rowGet row "side").getD "")
    quantity := jsParseFloatOpt (rowGet row "quantity")
    trade_price := jsParseFloatOpt (rowGet row "trade_price")
    currency := orDefault (rowGet row "currency") "USD" }

/-- A stored market price (index.tsx lines 311-315): built with no
validation, so the string fields may be absent and the price NaN. -/
structure MarketPrice where
  instrument : Option String
  price_date : Option String
  close_price : JsFloat
deriving DecidableEq, Repr

/-- The two collections of the key-value store. -/
structure Store where
  trades : List Trade
  market_prices : List MarketPrice
deriving DecidableEq, Repr

/-- An invalid row as reported by the upload response. -/
structure InvalidTrade where
  row : Row
  errors : List String
deriving DecidableEq, Repr

/-- The success response of `POST /trades/upload`. -/
structure UploadResult where
  validCount : ℕ
  invalidCount : ℕ
  invalidTrades : List InvalidTrade
deriving DecidableEq, Repr

/-- `POST /trades/upload` (index.tsx lines 58-122) from the decoded CSV
text: parse, partition every row independently into valid (normalized)
and invalid, append the valid ones to the stored collection (the store
is written only when at least one row is valid), and report the counts
plus the first 10 invalid rows.  `none` is the 400 "empty CSV" error. -/
def uploadTrades (store : Store) (csvText : String) : Option (Store × UploadResult) :=
  let rows := parseCSV csvText
  if rows.isEmpty then none
  else
    let validTrades := (rows.filter (fun r => (validateTrade r).valid)).map normalizeTrade
    let invalidTrades := (rows.filter (fun r => !(validateTrade r).valid)).map
      (fun r => InvalidTrade.mk r (validateTrade r).errors)
    let store' :=
      if validTrades.isEmpty then store
      else { store with trades := store.trades ++ validTrades }
    some (store',
      { validCount := validTrades.length
        invalidCount := invalidTrades.length
        invalidTrades := invalidTrades.take 10 })

/-- `POST /market-prices/upload` (index.tsx lines 290-329): parse the
CSV, map each row to `{instrument, price_date, close_price: parseFloat}`
with no validation, and replace the whole price collection.  Returns the
new store and the reported count; `none` is the 400 "empty CSV" error. -/
def uploadMarketPrices (store : Store) (csvText : String) : Option (Store × ℕ) :=
  let rows := parseCSV csvText
  if rows.isEmpty then none
  else
    let prices := rows.map (fun r =>
      MarketPrice.mk (rowGet r "instrument") (rowGet r "price_date")
        (jsParseFloatOpt (rowGet r "close_price")))
    some ({ store with market_prices := prices }, prices.length)

/-! ## Trade query engine -/

/-- An optional query parameter, as the handlers test it: `undefined`
and the empty string are both falsy, i.e. "no filter". -/
def active (v : Option String) : Option String :=
  match v with
  | none => none
  | some s => if s.isEmpty then none else some s

/-- The filter stage of `GET /trades` (index.tsx lines 167-179):
lexical date bounds, then case-insensitive substring match on
instrument and trader. -/
def filterTrades (trades : List Trade) (fromDate toDate instrument trader : Option String) :
    List Trade :=
  let t1 :=
    match active fromDate with
    | some f => trades.filter (fun t => strLeB f t.trade_date)
    | none => trades
  let t2 :=
    match active toDate with
    | some f => t1.filter (fun t => strLeB t.trade_date f)
    | none => t1
  let t3 :=
    match active instrument with
    | some f => t2.filter (fun t => jsIncludes (jsToLower t.instrument) (jsToLower f))
    | none => t2
  match active trader with
  | some f => t3.filter (fun t => jsIncludes (jsToLower t.trader) (jsToLower f))
  | none => t3

/-- `a.trade_id.replace(/\D/g, '')`: the digit characters of the id. -/
def tradeIdDigits (t : Trade) : List Char := t.trade_id.data.filter Char.isDigit

/-- The sort comparator of `GET /trades` (index.tsx lines 182-191):
`parseInt` of the digits of each id is a number exactly when at least
one digit is left, in which case the pair is ordered numerically;
otherwise by `localeCompare` of the full ids. -/
def tradeCmp (a b : Trade) : ℤ :=
  let ad := tradeIdDigits a
  let bd := tradeIdDigits b
  if !ad.isEmpty && !bd.isEmpty then (digitsToNat ad : ℤ) - (digitsToNat bd : ℤ)
  else cmpStr a.trade_id b.trade_id

/-- The non-positive-comparator relation the sort orders by. -/
def tradeLe (a b : Trade) : Prop := tradeCmp a b ≤ 0

instance : DecidableRel tradeLe := fun a b => by
  unfold tradeLe; infer_instance

/-- The sort of `GET /trades`, modelled as a stable comparison sort. -/
def sortTrades (ts : List Trade) : List Trade := List.insertionSort tradeLe ts

/-- JavaScript `Array.prototype.slice(start, stop)`: negative indices
count from the end, and both endpoints are clamped to the array. -/
def jsSlice {α : Type} (l : List α) (start stop : ℤ) : List α :=
  let norm : ℤ → ℕ := fun i =>
    if i < 0 then ((l.length : ℤ) + i).toNat else min i.toNat l.length
  ((l.drop (norm start)).take (norm stop - norm start))

/-- The pagination block of the `GET /trades` response. -/
structure Pagination where
  page : ℤ
  limit : ℤ
  total : ℕ
  totalPages : ℤ
deriving DecidableEq, Repr

/-- The `GET /trades` response. -/
structure TradesResult where
  trades : List Trade
  pagination : Pagination
deriving DecidableEq, Repr

/-- `GET /trades` (index.tsx lines 156-212): filter, sort, paginate.
`Math.ceil(total / limit)` is modelled as the exact rational ceiling. -/
def listTrades (trades : List Trade) (fromDate toDate instrument trader : Option String)
    (page limit : ℤ) : TradesResult :=
  let sorted := sortTrades (filterTrades trades fromDate toDate instrument trader)
  let total := sorted.length
  let start := (page - 1) * limit
  { trades := jsSlice sorted start (start + limit)
    pagination :=
      { page := page
        limit := limit
        total := total
        totalPages := ⌈(total : ℚ) / (limit : ℚ)⌉ } }

/-! ## Valuation engine -/

/-- The filter stage of `GET /pnl` (index.tsx lines 224-234): the same
lexical date bounds as the listing, but an exact-equality instrument
match. -/
def pnlFilter (trades : List Trade) (fromDate toDate instrument : Option String) :
    List Trade :=
  let t1 :=
    match active fromDate with
    | some f => trades.filter (fun t => strLeB f t.trade_date)
    | none => trades
  let t2 :=
    match active toDate with
    | some f => t1.filter (fun t => strLeB t.trade_date f)
    | none => t1
  match active instrument with
  | some f => t2.filter (fun t => t.instrument = f)
  | none => t2

/-- The `new Date(price_date).getTime()` sort key, modelled as the date
string (lexicographic order; `undefined` sorts least). -/
def priceDateKey (p : MarketPrice) : String := p.price_date.getD ""

/-- The descending-by-date relation the price sort orders by. -/
def priceGe (a b : MarketPrice) : Prop := strLeB (priceDateKey b) (priceDateKey a) = true

instance : DecidableRel priceGe := fun a b => by
  unfold priceGe; infer_instance

/-- Lines 243-247 of the `/pnl` handler: the prices whose `instrument`
strictly equals the trade's, sorted descending by date; the head, if
any, is the "latest" price. -/
def latestPriceFor (prices : List MarketPrice) (t : Trade) : Option MarketPrice :=
  (List.insertionSort priceGe
    (prices.filter (fun p => p.instrument = some t.instrument))).head?

/-- A valued trade of the `/pnl` response: the input trade merged with
the resolved `market_price` and the computed `mtm`. -/
structure ValuedTrade where
  trade : Trade
  market_price : JsFloat
  mtm : JsFloat
deriving DecidableEq, Repr

/-- Lines 249-267 of the `/pnl` handler for one trade: `parseFloat` of
an already-numeric value is the identity, and
`mtm = (market_price - trade_price) * quantity` with no reference to
`side`.  `none` when no price matches. -/
def valueTrade (prices : List MarketPrice) (t : Trade) : Option ValuedTrade :=
  (latestPriceFor prices t).map (fun p =>
    ValuedTrade.mk t p.close_price
      (JsFloat.mul (JsFloat.sub p.close_price t.trade_price) t.quantity))

/-- One `{date, pnl}` entry of the `dailyPnL` array. -/
structure DailyPnL where
  date : String
  pnl : JsFloat
deriving DecidableEq, Repr

/-- `dailyPnL[date] = (dailyPnL[date] || 0) + mtm` on the insertion-order
association list modelling the accumulator object. -/
def dailyBump (m : List (String × JsFloat)) (k : String) (v : JsFloat) :
    List (String × JsFloat) :=
  match m with
  | [] => [(k, JsFloat.add (JsFloat.num 0) v)]
  | (k', v') :: rest =>
    if k' = k then (k', JsFloat.add (jsOr v' (JsFloat.num 0)) v) :: rest
    else (k', v') :: dailyBump rest k v

/-- The loop state of the `/pnl` handler: running `totalPnL`, the
`dailyPnL` object, and the `tradesPnL` array. -/
structure PnLAcc where
  totalPnL : JsFloat
  dailyPnL : List (String × JsFloat)
  tradesPnL : List ValuedTrade
deriving DecidableEq, Repr

/-- One iteration of the `/pnl` loop (index.tsx lines 241-269). -/
def pnlStep (prices : List MarketPrice) (acc : PnLAcc) (t : Trade) : PnLAcc :=
  match valueTrade prices t with
  | none => acc
  | some v =>
    { totalPnL := JsFloat.add acc.totalPnL v.mtm
      dailyPnL := dailyBump acc.dailyPnL t.trade_date v.mtm
      tradesPnL := acc.tradesPnL ++ [v] }

/-- The ascending-by-date relation the `dailyPnL` array sort orders by. -/
def dailyAsc (a b : DailyPnL) : Prop := strLeB a.date b.date = true

instance : DecidableRel dailyAsc := fun a b => by
  unfold dailyAsc; infer_instance

/-- The `GET /pnl` response. -/
structure PnLResult where
  totalPnL : JsFloat
  dailyPnL : List DailyPnL
  tradeCount : ℕ
  valuedTradeCount : ℕ
  trades : List ValuedTrade
deriving DecidableEq, Repr

/-- `GET /pnl` (index.tsx lines 215-287): filter the trades, run the
valuation loop, then turn the daily object into a date-ascending array. -/
def computePnL (store : Store) (fromDate toDate instrument : Option String) : PnLResult :=
  let filteredTrades := pnlFilter store.trades fromDate toDate instrument
  let acc := filteredTrades.foldl (pnlStep store.market_prices)
    (PnLAcc.mk (JsFloat.num 0) [] [])
  { totalPnL := acc.totalPnL
    dailyPnL := List.insertionSort dailyAsc
      (acc.dailyPnL.map (fun p => DailyPnL.mk p.1 p.2))
    tradeCount := filteredTrades.length
    valuedTradeCount := acc.tradesPnL.length
    trades := acc.tradesPnL }

/-! ## Order lemmas for the string comparison -/

theorem char_toNat_inj {a b : Char} (h : a.toNat = b.toNat) : a = b := by
  cases a
  cases b
  simp only [Char.toNat] at h
  congr 1
  exact UInt32.ext h

theorem listLtB_irrefl : ∀ l : List Char, listLtB l l = false
  | [] => rfl
  | a :: as => by
    simp [listLtB, charLt, listLtB_irrefl as]

theorem listLtB_trichotomy : ∀ a b : List Char,
    (listLtB a b = true ∧ listLtB b a = false ∧ a ≠ b) ∨
    (listLtB a b = false ∧ listLtB b a = false ∧ a = b) ∨
    (listLtB a b = false ∧ listLtB b a = true ∧ a ≠ b)
  | [], [] => by simp [listLtB]
  | [], _ :: _ => by simp [listLtB]
  | _ :: _, [] => by simp [listLtB]
  | x :: xs, y :: ys => by
    rcases Nat.lt_trichotomy x.toNat y.toNat with hxy | hxy | hxy
    · refine Or.inl ⟨?_, ?_, ?_⟩
      · simp [listLtB, charLt, hxy]
      · have hyx : ¬ y.toNat < x.toNat := Nat.le_of_lt hxy |>.not_lt
        have hne : y ≠ x := fun h => absurd (h ▸ hxy) (Nat.lt_irrefl _)
        simp [listLtB, charLt, hyx, hne]
      · intro h
        cases h
        exact Nat.lt_irrefl _ hxy
    · have hx : x = y := char_toNat_inj hxy
      subst hx
      rcases listLtB_trichotomy xs ys with ⟨h1, h2, h3⟩ | ⟨h1, h2, h3⟩ | ⟨h1, h2, h3⟩
      · refine Or.inl ⟨?_, ?_, ?_⟩
        · simp [listLtB, charLt, h1]
        · simp [listLtB, charLt, h2]
        · simp [h3]
      · subst h3
        refine Or.inr (Or.inl ⟨?_, ?_, rfl⟩)
        · simp [listLtB, charLt, h1]
        · simp [listLtB, charLt, h2]
      · refine Or.inr (Or.inr ⟨?_, ?_, ?_⟩)
        · simp [listLtB, charLt, h1]
        · simp [listLtB, charLt, h2]
        · simp [h3]
    · refine Or.inr (Or.inr ⟨?_, ?_, ?_⟩)
      · have hyx : ¬ x.toNat < y.toNat := Nat.le_of_lt hxy |>.not_lt
        have hne : x ≠ y := fun h => absurd (h ▸ hxy) (Nat.lt_irrefl _)
        simp [listLtB, charLt, hyx, hne]
      · simp [listLtB, charLt, hxy]
      · intro h
        cases h
        exact Nat.lt_irrefl _ hxy

theorem listLtB_trans : ∀ a b c : List Char,
    listLtB a b = true → listLtB b c = true → listLtB a c = true
  | [], _ :: _, _ :: _, _, _ => rfl
  | x :: xs, y :: ys, z :: zs, hab, hbc => by
    simp only [listLtB, charLt, Bool.or_eq_true, Bool.and_eq_true, decide_eq_true_eq] at hab hbc ⊢
    rcases hab with hab | ⟨hab1, hab2⟩
    · rcases hbc with hbc | ⟨hbc1, hbc2⟩
      · exact Or.inl (Nat.lt_trans hab hbc)
      · exact Or.inl (hbc1 ▸ hab)
    · rcases hbc with hbc | ⟨hbc1, hbc2⟩
      · subst hab1
        exact Or.inl hbc
      · subst hab1
        subst hbc1
        exact Or.inr ⟨rfl, listLtB_trans _ _ _ hab2 hbc2⟩

theorem strLeB_refl (a : String) : strLeB a a = true := by
  simp [strLeB, strLtB, listLtB_irrefl]

theorem strLeB_total (a b : String) : strLeB a b = true ∨ strLeB b a = true := by
  rcases listLtB_trichotomy a.data b.data with ⟨_, h, _⟩ | ⟨h, _, _⟩ | ⟨h, _, _⟩ <;>
    simp [strLeB, strLtB, h]

theorem string_eq_of_data_eq {a b : String} (h : a.data = b.data) : a = b := by
  cases a
  cases b
  exact congrArg String.mk h

theorem strLeB_trans {a b c : String} (h1 : strLeB a b = true) (h2 : strLeB b c = true) :
    strLeB a c = true := by
  simp only [strLeB, strLtB, Bool.not_eq_true'] at h1 h2 ⊢
  by_contra hca
  simp only [Bool.not_eq_false] at hca
  rcases listLtB_trichotomy c.data b.data with ⟨hcb, _, _⟩ | ⟨_, _, hcb⟩ | ⟨_, hbc, _⟩
  · exact absurd hcb (by simp [h2])
  · exact absurd (hcb ▸ hca) (by simp [h1])
  · exact absurd (listLtB_trans _ _ _ hbc hca) (by simp [h1])

theorem strLeB_iff_lt_or_eq {a b : String} :
    strLeB a b = true ↔ (strLtB a b = true ∨ a = b) := by
  constructor
  · intro h
    simp only [strLeB, Bool.not_eq_true'] at h
    rcases listLtB_trichotomy a.data b.data with ⟨h1, _, _⟩ | ⟨_, _, h1⟩ | ⟨_, h1, _⟩
    · exact Or.inl h1
    · exact Or.inr (string_eq_of_data_eq h1)
    · exact absurd h1 (by simp [strLtB] at h; simp [h])
  · intro h
    rcases h with h | h
    · rcases listLtB_trichotomy a.data b.data with ⟨_, h1, _⟩ | ⟨h1, _, _⟩ | ⟨h1, _, _⟩
      · simp [strLeB, strLtB, h1]
      · exact absurd h (by simp [strLtB, h1])
      · exact absurd h (by simp [strLtB, h1])
    · subst h
      exact strLeB_refl a

theorem strLeB_antisymm {a b : String} (h1 : strLeB a b = true) (h2 : strLeB b a = true) :
    a = b := by
  simp only [strLeB, Bool.not_eq_true'] at h1 h2
  rcases listLtB_trichotomy a.data b.data with ⟨h, _, _⟩ | ⟨_, _, h⟩ | ⟨_, h, _⟩
  · exact absurd h (by simp [strLtB] at h2; simp [h2])
  · exact string_eq_of_data_eq h
  · exact absurd h (by simp [strLtB] at h1; simp [h1])

instance : IsTotal MarketPrice priceGe :=
  ⟨fun a b => by
    rcases strLeB_total (priceDateKey a) (priceDateKey b) with h | h
    · exact Or.inr h
    · exact Or.inl h⟩

instance : IsTrans MarketPrice priceGe :=
  ⟨fun _ _ _ h1 h2 => strLeB_trans h2 h1⟩

instance : IsTotal DailyPnL dailyAsc :=
  ⟨fun a b => strLeB_total a.date b.date⟩

instance : IsTrans DailyPnL dailyAsc :=
  ⟨fun _ _ _ h1 h2 => strLeB_trans h1 h2⟩

/-! ## Sorting and slicing helper lemmas -/

theorem orderedInsert_congr {α : Type} (r s : α → α → Prop) [DecidableRel r] [DecidableRel s]
    (h : ∀ a b, r a b ↔ s a b) (a : α) :
    ∀ l : List α, List.orderedInsert r a l = List.orderedInsert s a l
  | [] => rfl
  | b :: l => by
    simp only [List.orderedInsert]
    by_cases hr : r a b
    · rw [if_pos hr, if_pos ((h a b).mp hr)]
    · rw [if_neg hr, if_neg (fun hs => hr ((h a b).mpr hs)), orderedInsert_congr r s h a l]

theorem insertionSort_congr {α : Type} (r s : α → α → Prop) [DecidableRel r] [DecidableRel s]
    (h : ∀ a b, r a b ↔ s a b) :
    ∀ l : List α, List.insertionSort r l = List.insertionSort s l
  | [] => rfl
  | a :: l => by
    simp only [List.insertionSort]
    rw [insertionSort_congr r s h l, orderedInsert_congr r s h a]

theorem latestPriceFor_none {prices : List MarketPrice} {t : Trade}
    (h : prices.filter (fun p => p.instrument = some t.instrument) = []) :
    latestPriceFor prices t = none := by
  simp [latestPriceFor, h]

theorem latestPriceFor_max {prices : List MarketPrice} {t : Trade}
    (h : prices.filter (fun p => p.instrument = some t.instrument) ≠ []) :
    ∃ p, latestPriceFor prices t = some p ∧
      p ∈ prices.filter (fun q => q.instrument = some t.instrument) ∧
      ∀ q ∈ prices.filter (fun q => q.instrument = some t.instrument),
        strLeB (priceDateKey q) (priceDateKey p) = true := by
  have hperm := List.perm_insertionSort priceGe
    (prices.filter (fun q => q.instrument = some t.instrument))
  have hsorted := List.sorted_insertionSort priceGe
    (prices.filter (fun q => q.instrument = some t.instrument))
  cases hs : List.insertionSort priceGe
      (prices.filter (fun q => q.instrument = some t.instrument)) with
  | nil =>
    rw [hs] at hperm
    exact absurd hperm.symm.eq_nil h
  | cons p rest =>
    rw [hs] at hperm hsorted
    refine ⟨p, ?_, ?_, ?_⟩
    · simp [latestPriceFor, hs]
    · exact hperm.mem_iff.mp (List.mem_cons_self p rest)
    · intro q hq
      rcases List.mem_cons.mp (hperm.symm.mem_iff.mp hq) with rfl | hq'
      · exact strLeB_refl _
      · exact List.rel_of_sorted_cons hsorted q hq'

theorem jsSlice_full {α : Type} (l : List α) (L : ℤ) (h : (l.length : ℤ) ≤ L) :
    jsSlice l 0 L = l := by
  have h0 : ¬ (0 : ℤ) < 0 := by omega
  have hL : ¬ L < 0 := by omega
  have hLt : L.toNat ≥ l.length := by omega
  simp only [jsSlice, h0, hL, if_false]
  have : min (0 : ℤ).toNat l.length = 0 := by simp
  rw [this]
  have : min L.toNat l.length = l.length := by omega
  rw [this]
  simp

theorem jsSlice_length {α : Type} (l : List α) (start limit : ℤ)
    (hs : 0 ≤ start) (hl : 0 ≤ limit) :
    (jsSlice l start (start + limit)).length = min limit.toNat (l.length - start.toNat) := by
  have h1 : ¬ start < 0 := by omega
  have h2 : ¬ start + limit < 0 := by omega
  have h3 : (start + limit).toNat = start.toNat + limit.toNat := by omega
  simp only [jsSlice, h1, h2, if_false, List.length_take, List.length_drop, h3]
  omega

/-! ## Valuation-loop helper lemmas -/

theorem valueTrade_trade {prices : List MarketPrice} {t : Trade} {v : ValuedTrade}
    (h : valueTrade prices t = some v) : v.trade = t := by
  simp only [valueTrade, Option.map_eq_some'] at h
  rcases h with ⟨p, _, rfl⟩
  rfl

theorem foldl_pnlStep_eq (prices : List MarketPrice) :
    ∀ (ts : List Trade) (acc : PnLAcc),
    List.foldl (pnlStep prices) acc ts =
      { totalPnL := List.foldl JsFloat.add acc.totalPnL
          (ts.filterMap (fun t => (valueTrade prices t).map ValuedTrade.mtm))
        dailyPnL := List.foldl (fun m p => dailyBump m p.1 p.2) acc.dailyPnL
          (ts.filterMap (fun t => (valueTrade prices t).map (fun v => (t.trade_date, v.mtm))))
        tradesPnL := acc.tradesPnL ++ ts.filterMap (valueTrade prices) }
  | [], acc => by simp
  | t :: ts, acc => by
    cases hv : valueTrade prices t with
    | none =>
      simp only [List.foldl_cons, pnlStep, hv, List.filterMap_cons, Option.map_none']
      exact foldl_pnlStep_eq prices ts acc
    | some v =>
      simp only [List.foldl_cons, pnlStep, hv, List.filterMap_cons, Option.map_some']
      rw [foldl_pnlStep_eq prices ts _]
      simp [List.append_assoc]

theorem computePnL_trades (st : Store) (f t i : Option String) :
    (computePnL st f t i).trades =
      (pnlFilter st.trades f t i).filterMap (valueTrade st.market_prices) := by
  simp [computePnL, foldl_pnlStep_eq]

theorem computePnL_totalPnL (st : Store) (f t i : Option String) :
    (computePnL st f t i).totalPnL =
      jsSum ((pnlFilter st.trades f t i).filterMap
        (fun tr => (valueTrade st.market_prices tr).map ValuedTrade.mtm)) := by
  simp [computePnL, foldl_pnlStep_eq, jsSum]

theorem computePnL_tradeCount (st : Store) (f t i : Option String) :
    (computePnL st f t i).tradeCount = (pnlFilter st.trades f t i).length := rfl

theorem computePnL_valuedTradeCount (st : Store) (f t i : Option String) :
    (computePnL st f t i).valuedTradeCount =
      ((pnlFilter st.trades f t i).filterMap (valueTrade st.market_prices)).length := by
  simp [computePnL, foldl_pnlStep_eq]

theorem computePnL_dailyPnL (st : Store) (f t i : Option String) :
    (computePnL st f t i).dailyPnL =
      List.insertionSort dailyAsc
        ((List.foldl (fun m p => dailyBump m p.1 p.2) []
          ((pnlFilter st.trades f t i).filterMap
            (fun tr => (valueTrade st.market_prices tr).map
              (fun v => (tr.trade_date, v.mtm))))).map (fun p => DailyPnL.mk p.1 p.2)) := by
  simp [computePnL, foldl_pnlStep_eq]

/-! ## Daily-P&L accumulator lemmas -/

/-- Property read on the accumulator object. -/
def alGet : List (String × JsFloat) → String → Option JsFloat
  | [], _ => none
  | (k', v) :: rest, k => if k' = k then some v else alGet rest k

/-- The keys of the accumulator object, in insertion order. -/
def alKeys (m : List (String × JsFloat)) : List String := m.map Prod.fst

/-- `x || 0` applied to a property read. -/
def jsGetOr0 (o : Option JsFloat) : JsFloat :=
  match o with
  | none => JsFloat.num 0
  | some u => jsOr u (JsFloat.num 0)

theorem jsOr_num_zero (q : ℚ) : jsOr (JsFloat.num q) (JsFloat.num 0) = JsFloat.num q := by
  by_cases h : q = 0 <;> simp [jsOr, JsFloat.truthy, h]

theorem isFinite_iff {v : JsFloat} : v.isFinite = true ↔ ∃ q : ℚ, v = JsFloat.num q := by
  cases v <;> simp [JsFloat.isFinite]

theorem alGet_bump_self : ∀ (m : List (String × JsFloat)) (k : String) (v : JsFloat),
    alGet (dailyBump m k v) k = some (JsFloat.add (jsGetOr0 (alGet m k)) v)
  | [], k, v => by simp [dailyBump, alGet, jsGetOr0]
  | (k', v') :: rest, k, v => by
    by_cases h : k' = k
    · simp [dailyBump, alGet, jsGetOr0, h]
    · simp [dailyBump, alGet, h, alGet_bump_self rest k v]

theorem alGet_bump_ne : ∀ (m : List (String × JsFloat)) (k k0 : String) (v : JsFloat),
    k0 ≠ k → alGet (dailyBump m k v) k0 = alGet m k0
  | [], k, k0, v, h => by
    have hne : ¬ k = k0 := fun hh => h hh.symm
    simp [dailyBump, alGet, hne]
  | (k', v') :: rest, k, k0, v, h => by
    by_cases h' : k' = k
    · subst h'
      have hne : ¬ k' = k0 := fun hh => h hh.symm
      simp [dailyBump, alGet, hne]
    · have hb : dailyBump ((k', v') :: rest) k v = (k', v') :: dailyBump rest k v := by
        simp [dailyBump, h']
      rw [hb]
      by_cases h'' : k' = k0
      · simp [alGet, h'']
      · simp [alGet, h'', alGet_bump_ne rest k k0 v h]

theorem alKeys_bump : ∀ (m : List (String × JsFloat)) (k : String) (v : JsFloat),
    alKeys (dailyBump m k v) = if k ∈ alKeys m then alKeys m else alKeys m ++ [k]
  | [], k, v => by simp [dailyBump, alKeys]
  | (k', v') :: rest, k, v => by
    by_cases h : k' = k
    · subst h
      simp [dailyBump, alKeys]
    · have hne : ¬ k = k' := fun hh => h hh.symm
      have hb : dailyBump ((k', v') :: rest) k v = (k', v') :: dailyBump rest k v := by
        simp [dailyBump, h]
      rw [hb]
      show k' :: alKeys (dailyBump rest k v) = _
      rw [alKeys_bump rest k v]
      by_cases hk : k ∈ alKeys rest
      · rw [if_pos hk,
          if_pos (show k ∈ alKeys ((k', v') :: rest) from List.mem_cons.mpr (Or.inr hk))]
        rfl
      · rw [if_neg hk,
          if_neg (show k ∉ alKeys ((k', v') :: rest) from
            fun hmem => (List.mem_cons.mp hmem).elim hne hk)]
        rfl

theorem alGet_none_iff : ∀ (m : List (String × JsFloat)) (k : String),
    alGet m k = none ↔ k ∉ alKeys m
  | [], k => by simp [alGet, alKeys]
  | (k', v') :: rest, k => by
    by_cases h : k' = k
    · simp [alGet, alKeys, h]
    · have hne : ¬ k = k' := fun hh => h hh.symm
      simp [alGet, alKeys, h, hne, alGet_none_iff rest k]

theorem alGet_of_mem_nodup : ∀ {m : List (String × JsFloat)}, (alKeys m).Nodup →
    ∀ {e : String × JsFloat}, e ∈ m → alGet m e.1 = some e.2 := by
  intro m
  induction m with
  | nil => intro _ e he; cases he
  | cons a rest ih =>
    intro hnd e he
    have hnd' : (alKeys rest).Nodup := (List.nodup_cons.mp hnd).2
    rcases List.mem_cons.mp he with rfl | he'
    · simp [alGet]
    · have hne : a.1 ≠ e.1 := by
        intro hh
        exact (List.nodup_cons.mp hnd).1 (hh ▸ List.mem_map_of_mem Prod.fst he')
      simp [alGet, hne, ih hnd' he']

theorem alKeys_nodup_bump {m : List (String × JsFloat)} (h : (alKeys m).Nodup)
    (k : String) (v : JsFloat) : (alKeys (dailyBump m k v)).Nodup := by
  rw [alKeys_bump]
  by_cases hk : k ∈ alKeys m
  · simp [hk, h]
  · simp only [hk, if_false]
    simp [List.nodup_append, h, hk]

theorem alKeys_nodup_foldl : ∀ (ps : List (String × JsFloat)) (m : List (String × JsFloat)),
    (alKeys m).Nodup →
    (alKeys (List.foldl (fun m p => dailyBump m p.1 p.2) m ps)).Nodup
  | [], m, h => h
  | p :: rest, m, h =>
    alKeys_nodup_foldl rest _ (alKeys_nodup_bump h p.1 p.2)

/-- The exact sum of the finite values filed under key `k`. -/
def ratSumAt (ps : List (String × JsFloat)) (k : String) : ℚ :=
  ((ps.filter (fun p => p.1 = k)).map (fun p => p.2.toQ)).sum

theorem foldl_bump_alGet :
    ∀ (ps : List (String × JsFloat)) (m : List (String × JsFloat)) (k : String),
    (∀ e ∈ ps, e.2.isFinite = true) →
    (∀ k0 v0, alGet m k0 = some v0 → v0.isFinite = true) →
    alGet (List.foldl (fun m p => dailyBump m p.1 p.2) m ps) k =
      (match alGet m k with
       | some v => some (JsFloat.num (v.toQ + ratSumAt ps k))
       | none =>
         if ps.any (fun p => p.1 = k) then some (JsFloat.num (ratSumAt ps k)) else none) := by
  intro ps
  induction ps with
  | nil =>
    intro m k _ hm
    cases halGet : alGet m k with
    | none =>
      simp [ratSumAt]
      exact halGet
    | some v =>
      rcases isFinite_iff.mp (hm k v halGet) with ⟨q, rfl⟩
      simp [ratSumAt, JsFloat.toQ]
      exact halGet
  | cons p rest ih =>
    obtain ⟨pk, pv⟩ := p
    intro m k hps hm
    have hpfin : pv.isFinite = true := hps (pk, pv) (List.mem_cons_self _ rest)
    rcases isFinite_iff.mp hpfin with ⟨r, hr⟩
    subst hr
    have hrest : ∀ e ∈ rest, e.2.isFinite = true :=
      fun e he => hps e (List.mem_cons_of_mem _ he)
    have hm' : ∀ k0 v0, alGet (dailyBump m pk (JsFloat.num r)) k0 = some v0 →
        v0.isFinite = true := by
      intro k0 v0 h0
      by_cases hk0 : k0 = pk
      · rw [hk0, alGet_bump_self] at h0
        cases halGet : alGet m pk with
        | none =>
          rw [halGet] at h0
          simp only [jsGetOr0, JsFloat.add, Option.some.injEq] at h0
          rw [← h0]
          rfl
        | some v =>
          rcases isFinite_iff.mp (hm pk v halGet) with ⟨q, rfl⟩
          rw [halGet] at h0
          simp only [jsGetOr0, jsOr_num_zero, JsFloat.add, Option.some.injEq] at h0
          rw [← h0]
          rfl
      · rw [alGet_bump_ne m pk k0 (JsFloat.num r) hk0] at h0
        exact hm k0 v0 h0
    rw [List.foldl_cons, ih (dailyBump m pk (JsFloat.num r)) k hrest hm']
    by_cases hk : k = pk
    · subst hk
      rw [alGet_bump_self]
      have hsum : ratSumAt ((k, JsFloat.num r) :: rest) k = r + ratSumAt rest k := by
        simp [ratSumAt, List.filter_cons, JsFloat.toQ]
      cases halGet : alGet m k with
      | none =>
        simp only [jsGetOr0, JsFloat.add]
        have hany : ((k, JsFloat.num r) :: rest).any (fun e => e.1 = k) = true := by
          simp [List.any_cons]
        simp [JsFloat.toQ, hany, hsum]
      | some v =>
        rcases isFinite_iff.mp (hm k v halGet) with ⟨q, rfl⟩
        simp only [jsGetOr0, jsOr_num_zero, JsFloat.add]
        simp [JsFloat.toQ, hsum]
        ring
    · have hkne : ¬ pk = k := fun hh => hk hh.symm
      rw [alGet_bump_ne m pk k (JsFloat.num r) hk]
      have hfilter : ratSumAt ((pk, JsFloat.num r) :: rest) k = ratSumAt rest k := by
        simp [ratSumAt, List.filter_cons, hkne]
      have hany : ((pk, JsFloat.num r) :: rest).any (fun e => e.1 = k) =
          rest.any (fun e => e.1 = k) := by
        simp [List.any_cons, hkne]
      rw [hfilter, hany]

theorem foldl_add_num : ∀ (l : List JsFloat), (∀ v ∈ l, v.isFinite = true) →
    ∀ q : ℚ, List.foldl JsFloat.add (JsFloat.num q) l = JsFloat.num (q + (l.map JsFloat.toQ).sum)
  | [], _, q => by simp
  | v :: rest, h, q => by
    rcases isFinite_iff.mp (h v (List.mem_cons_self v rest)) with ⟨r, rfl⟩
    rw [List.foldl_cons]
    simp only [JsFloat.add]
    rw [foldl_add_num rest (fun w hw => h w (List.mem_cons_of_mem _ hw)) (q + r)]
    simp [JsFloat.toQ]
    ring

theorem jsSum_num {l : List JsFloat} (h : ∀ v ∈ l, v.isFinite = true) :
    jsSum l = JsFloat.num ((l.map JsFloat.toQ).sum) := by
  rw [jsSum, foldl_add_num l h 0]
  simp

/-! ## Row-lookup helper lemmas -/

theorem find?_eq_some_of_unique {α : Type} (p : α → Bool) :
    ∀ {l : List α} {a : α}, a ∈ l → p a = true → (∀ b ∈ l, p b = true → b = a) →
    l.find? p = some a := by
  intro l
  induction l with
  | nil => intro a ha; cases ha
  | cons x xs ih =>
    intro a ha hpa huniq
    by_cases hx : p x = true
    · have hxa : x = a := huniq x (List.mem_cons_self x xs) hx
      subst hxa
      simp [List.find?, hx]
    · rcases List.mem_cons.mp ha with rfl | ha'
      · exact absurd hpa hx
      · have hrec : List.find? p xs = some a :=
          ih ha' hpa (fun b hb => huniq b (List.mem_cons_of_mem x hb))
        have hx' : p x = false := Bool.eq_false_iff.mpr hx
        simp [List.find?, hx', hrec]

theorem get?_inj_of_nodup {l : List String} (hnd : l.Nodup) {i j : ℕ} {a : String}
    (hi : l.get? i = some a) (hj : l.get? j = some a) : i = j := by
  rcases List.get?_eq_some.mp hi with ⟨hi', hgi⟩
  rcases List.get?_eq_some.mp hj with ⟨hj', hgj⟩
  have : l.get ⟨i, hi'⟩ = l.get ⟨j, hj'⟩ := by rw [hgi, hgj]
  exact congrArg Fin.val ((hnd.get_inj_iff).mp this)

/-- The row built from a header list and a value list: the positional
assignment `row[headers[i]] = values[i]`. -/
theorem rowGet_positional (headers : List String) (vals : List String)
    (hnd : headers.Nodup) (k : ℕ) (h : String) (hk : headers.get? k = some h) :
    rowGet (headers.enum.map (fun p => (p.2, vals.get? p.1))) h = vals.get? k := by
  have hmem : ((h, vals.get? k) : String × Option String) ∈
      (headers.enum.map (fun p => (p.2, vals.get? p.1))).reverse := by
    rw [List.mem_reverse]
    refine List.mem_map.mpr ⟨(k, h), ?_, rfl⟩
    exact List.mem_enum_iff_get?.mpr hk
  have huniq : ∀ b ∈ (headers.enum.map (fun p => (p.2, vals.get? p.1))).reverse,
      (b.1 = h : Bool) = true → b = (h, vals.get? k) := by
    intro b hb hbh
    rw [List.mem_reverse] at hb
    rcases List.mem_map.mp hb with ⟨⟨i, h'⟩, hmem', rfl⟩
    have hgi : headers.get? i = some h' := List.mem_enum_iff_get?.mp hmem'
    have hh' : h' = h := by simpa using hbh
    subst hh'
    have : i = k := get?_inj_of_nodup hnd hgi hk
    subst this
    rfl
  rw [rowGet, find?_eq_some_of_unique _ hmem (by simp) huniq]

/-! ## Claim C8: shape of the CSV parser -/

/-- C8: an input with fewer than 2 lines parses to the empty sequence;
an input with a header line and at least one data line parses to exactly
`lines - 1` row objects, each mapping the trimmed header fields
positionally onto the trimmed values of its line, with reads of a
(unique) header beyond the end of a short line giving `undefined`. -/
theorem c8_parseCSV_shape (csv : String) :
    ((jsSplit '\n' (jsTrim csv)).length < 2 → parseCSV csv = []) ∧
    (∀ hd rest, jsSplit '\n' (jsTrim csv) = hd :: rest → rest ≠ [] →
      (parseCSV csv).length = (jsSplit '\n' (jsTrim csv)).length - 1 ∧
      parseCSV csv = rest.map (fun line =>
        ((jsSplit ',' hd).map jsTrim).enum.map
          (fun p => (p.2, ((jsSplit ',' line).map jsTrim).get? p.1))) ∧
      (∀ line, ((jsSplit ',' hd).map jsTrim).Nodup →
        ∀ k h, ((jsSplit ',' hd).map jsTrim).get? k = some h →
          rowGet (((jsSplit ',' hd).map jsTrim).enum.map
            (fun p => (p.2, ((jsSplit ',' line).map jsTrim).get? p.1))) h =
            ((jsSplit ',' line).map jsTrim).get? k ∧
          (((jsSplit ',' line).map jsTrim).length ≤ k →
            rowGet (((jsSplit ',' hd).map jsTrim).enum.map
              (fun p => (p.2, ((jsSplit ',' line).map jsTrim).get? p.1))) h = none))) := by
  constructor
  · intro hlt
    cases hsplit : jsSplit '\n' (jsTrim csv) with
    | nil => simp [parseCSV, hsplit]
    | cons hd rest =>
      cases rest with
      | nil => simp [parseCSV, hsplit]
      | cons r1 rest' =>
        rw [hsplit] at hlt
        simp at hlt
        omega
  · intro hd rest hsplit hne
    cases rest with
    | nil => exact absurd rfl hne
    | cons r1 rest' =>
      refine ⟨?_, ?_, ?_⟩
      · simp [parseCSV, hsplit]
      · simp [parseCSV, hsplit]
      · intro line hnd k h hk
        constructor
        · exact rowGet_positional _ _ hnd k h hk
        · intro hshort
          rw [rowGet_positional _ _ hnd k h hk]
          exact List.get?_eq_none.mpr hshort

/-- C8 witness: a one-line input parses to nothing; `a,b` over the single
data line `1` gives one row whose `b` field is absent. -/
theorem c8_witness :
    parseCSV "justoneline" = [] ∧
    (parseCSV "a,b\n1").length = (jsSplit '\n' (jsTrim "a,b\n1")).length - 1 ∧
    (rowGet (((jsSplit ',' "a,b").map jsTrim).enum.map
      (fun p => (p.2, ((jsSplit ',' "1").map jsTrim).get? p.1))) "b" = none) :=
  ⟨(c8_parseCSV_shape "justoneline").1 (by decide),
   ((c8_parseCSV_shape "a,b\n1").2 "a,b" ["1"] (by decide) (by decide)).1,
   ((((c8_parseCSV_shape "a,b\n1").2 "a,b" ["1"] (by decide) (by decide)).2.2
      "1" (by decide) 1 "b" (by decide)).2 (by decide))⟩

/-! ## Claim C9: market-price upload replaces the price collection -/

/-- C9: a successful market-price upload stores exactly the parsed rows
`{instrument, price_date, close_price: parseFloat(...)}` — replacing the
previous price collection wholesale, with no validation — and leaves the
trade collection untouched. -/
theorem c9_uploadMarketPrices_replaces (st : Store) (csv : String)
    (hne : parseCSV csv ≠ []) :
    uploadMarketPrices st csv =
      some ({ trades := st.trades
              market_prices := (parseCSV csv).map (fun r =>
                MarketPrice.mk (rowGet r "instrument") (rowGet r "price_date")
                  (jsParseFloatOpt (rowGet r "close_price"))) },
        (parseCSV csv).length) := by
  have hemp : (parseCSV csv).isEmpty = false := by
    cases hp : parseCSV csv with
    | nil => exact absurd hp hne
    | cons a l => rfl
  simp [uploadMarketPrices, hemp]

/-- C9 witness: uploading one price row over a store that already holds a
trade and an old price fully replaces the prices and keeps the trade. -/
theorem c9_witness :
    uploadMarketPrices
      (Store.mk [Trade.mk "T1" "2024-01-05" "A" "WTI" "BUY" (JsFloat.num 1)
        (JsFloat.num 2) "USD"]
        [MarketPrice.mk (some "OLD") (some "2020-01-01") (JsFloat.num 3)])
      "instrument,price_date,close_price\nWTI,2024-01-01,76" =
      some ({ trades := [Trade.mk "T1" "2024-01-05" "A" "WTI" "BUY" (JsFloat.num 1)
                (JsFloat.num 2) "USD"]
              market_prices :=
                (parseCSV "instrument,price_date,close_price\nWTI,2024-01-01,76").map
                  (fun r => MarketPrice.mk (rowGet r "instrument") (rowGet r "price_date")
                    (jsParseFloatOpt (rowGet r "close_price"))) },
        (parseCSV "instrument,price_date,close_price\nWTI,2024-01-01,76").length) :=
  c9_uploadMarketPrices_replaces _ _ (by decide)

/-! ## Claim C10: an all-invalid upload leaves the store untouched -/

/-- C10: when every parsed row fails validation, the upload performs no
store write (the store is returned exactly as it was), yet still returns
the success shape with `validCount = 0`, `invalidCount = N` and the first
10 invalid rows. -/
theorem c10_all_invalid_upload_no_write (st : Store) (csv : String)
    (hne : parseCSV csv ≠ [])
    (hall : ∀ r ∈ parseCSV csv, (validateTrade r).valid = false) :
    uploadTrades st csv =
      some (st,
        { validCount := 0
          invalidCount := (parseCSV csv).length
          invalidTrades := ((parseCSV csv).map
            (fun r => InvalidTrade.mk r (validateTrade r).errors)).take 10 }) := by
  have hemp : (parseCSV csv).isEmpty = false := by
    cases hp : parseCSV csv with
    | nil => exact absurd hp hne
    | cons a l => rfl
  have hfil : (parseCSV csv).filter (fun r => (validateTrade r).valid) = [] :=
    List.filter_eq_nil.mpr (fun r hr => by simp [hall r hr])
  have hfil2 : (parseCSV csv).filter (fun r => !(validateTrade r).valid) = parseCSV csv :=
    List.filter_eq_self.mpr (fun r hr => by simp [hall r hr])
  simp [uploadTrades, hemp, hfil, hfil2]

/-- C10 witness: a CSV whose two data rows are both invalid leaves a
non-empty store unchanged while reporting the two rows. -/
theorem c10_witness :
    uploadTrades
      (Store.mk [Trade.mk "T1" "2024-01-05" "A" "WTI" "BUY" (JsFloat.num 1)
        (JsFloat.num 2) "USD"] [])
      "trade_id,side\nX,HOLD\nY,ALSOBAD" =
      some (Store.mk [Trade.mk "T1" "2024-01-05" "A" "WTI" "BUY" (JsFloat.num 1)
          (JsFloat.num 2) "USD"] [],
        { validCount := 0
          invalidCount := (parseCSV "trade_id,side\nX,HOLD\nY,ALSOBAD").length
          invalidTrades := ((parseCSV "trade_id,side\nX,HOLD\nY,ALSOBAD").map
            (fun r => InvalidTrade.mk r (validateTrade r).errors)).take 10 }) :=
  c10_all_invalid_upload_no_write _ _ (by decide) (by decide)

/-! ## Claim C7: trade upload partitions, normalizes and appends -/

/-- C7: a successful trade upload partitions every parsed row
independently into valid and invalid groups (their counts always add up
to N), appends the normalized valid rows to the stored trade collection,
leaves the prices untouched, and reports the counts plus at most the
first 10 invalid rows; normalization uppercases `side`, parses the
numeric fields with `parseFloat`, and defaults `trader` / `currency`. -/
theorem c7_uploadTrades_partition (st : Store) (csv : String)
    (hne : parseCSV csv ≠ []) :
    ∃ st' res, uploadTrades st csv = some (st', res) ∧
      st'.trades = st.trades ++
        ((parseCSV csv).filter (fun r => (validateTrade r).valid)).map normalizeTrade ∧
      st'.market_prices = st.market_prices ∧
      res.validCount = ((parseCSV csv).filter (fun r => (validateTrade r).valid)).length ∧
      res.invalidCount = ((parseCSV csv).filter (fun r => !(validateTrade r).valid)).length ∧
      res.validCount + res.invalidCount = (parseCSV csv).length ∧
      res.invalidTrades = (((parseCSV csv).filter (fun r => !(validateTrade r).valid)).map
        (fun r => InvalidTrade.mk r (validateTrade r).errors)).take 10 ∧
      res.invalidTrades.length ≤ 10 ∧
      (∀ r s, rowGet r "side" = some s → (normalizeTrade r).side = jsToUpper s) ∧
      (∀ r s, rowGet r "quantity" = some s → (normalizeTrade r).quantity = jsParseFloat s) ∧
      (∀ r s, rowGet r "trade_price" = some s →
        (normalizeTrade r).trade_price = jsParseFloat s) ∧
      (∀ r, present (rowGet r "trader") = false → (normalizeTrade r).trader = "Unknown") ∧
      (∀ r, present (rowGet r "currency") = false → (normalizeTrade r).currency = "USD") := by
  have hemp : (parseCSV csv).isEmpty = false := by
    cases hp : parseCSV csv with
    | nil => exact absurd hp hne
    | cons a l => rfl
  refine ⟨(if (((parseCSV csv).filter (fun r => (validateTrade r).valid)).map
        normalizeTrade).isEmpty then st
      else { st with trades := st.trades ++
        ((parseCSV csv).filter (fun r => (validateTrade r).valid)).map normalizeTrade }),
    { validCount := (((parseCSV csv).filter (fun r => (validateTrade r).valid)).map
        normalizeTrade).length
      invalidCount := (((parseCSV csv).filter (fun r => !(validateTrade r).valid)).map
        (fun r => InvalidTrade.mk r (validateTrade r).errors)).length
      invalidTrades := (((parseCSV csv).filter (fun r => !(validateTrade r).valid)).map
        (fun r => InvalidTrade.mk r (validateTrade r).errors)).take 10 },
    ?_, ?_, ?_, ?_, ?_, ?_, rfl, ?_, ?_, ?_, ?_, ?_, ?_⟩
  · simp [uploadTrades, hemp]
  · by_cases hv : (((parseCSV csv).filter (fun r => (validateTrade r).valid)).map
        normalizeTrade).isEmpty
    · rw [if_pos hv]
      rw [List.isEmpty_iff] at hv
      simp [hv]
    · rw [if_neg (by simp [hv])]
  · by_cases hv : (((parseCSV csv).filter (fun r => (validateTrade r).valid)).map
        normalizeTrade).isEmpty
    · rw [if_pos hv]
    · rw [if_neg (by simp [hv])]
  · simp
  · simp
  · simp only [List.length_map]
    exact (List.length_eq_length_filter_add
      (fun r => (validateTrade r).valid)).symm
  · exact List.length_take_le 10 _
  · intro r s hs
    simp [normalizeTrade, hs]
  · intro r s hs
    simp [normalizeTrade, hs, jsParseFloatOpt]
  · intro r s hs
    simp [normalizeTrade, hs, jsParseFloatOpt]
  · intro r hp
    cases hs : rowGet r "trader" with
    | none => simp [normalizeTrade, hs, orDefault]
    | some s =>
      rw [hs] at hp
      have hp' : s.isEmpty = true := by
        simpa [present] using hp
      simp [normalizeTrade, hs, orDefault, hp']
  · intro r hp
    cases hs : rowGet r "currency" with
    | none => simp [normalizeTrade, hs, orDefault]
    | some s =>
      rw [hs] at hp
      have hp' : s.isEmpty = true := by
        simpa [present] using hp
      simp [normalizeTrade, hs, orDefault, hp']

/-- C7 witness: a two-row CSV with one valid and one invalid row, uploaded
over the empty store. -/
theorem c7_witness :
    ∃ st' res, uploadTrades (Store.mk [] [])
        "trade_id,trade_date,instrument,side,quantity,trade_price\nT1,2024-01-01,WTI,buy,10,5\nX,,,,," =
        some (st', res) ∧
      st'.trades = (Store.mk [] []).trades ++
        ((parseCSV "trade_id,trade_date,instrument,side,quantity,trade_price\nT1,2024-01-01,WTI,buy,10,5\nX,,,,,").filter
          (fun r => (validateTrade r).valid)).map normalizeTrade ∧
      st'.market_prices = (Store.mk [] []).market_prices ∧
      res.validCount =
        ((parseCSV "trade_id,trade_date,instrument,side,quantity,trade_price\nT1,2024-01-01,WTI,buy,10,5\nX,,,,,").filter
          (fun r => (validateTrade r).valid)).length ∧
      res.invalidCount =
        ((parseCSV "trade_id,trade_date,instrument,side,quantity,trade_price\nT1,2024-01-01,WTI,buy,10,5\nX,,,,,").filter
          (fun r => !(validateTrade r).valid)).length ∧
      res.validCount + res.invalidCount =
        (parseCSV "trade_id,trade_date,instrument,side,quantity,trade_price\nT1,2024-01-01,WTI,buy,10,5\nX,,,,,").length ∧
      res.invalidTrades =
        (((parseCSV "trade_id,trade_date,instrument,side,quantity,trade_price\nT1,2024-01-01,WTI,buy,10,5\nX,,,,,").filter
          (fun r => !(validateTrade r).valid)).map
          (fun r => InvalidTrade.mk r (validateTrade r).errors)).take 10 ∧
      res.invalidTrades.length ≤ 10 ∧
      (∀ r s, rowGet r "side" = some s → (normalizeTrade r).side = jsToUpper s) ∧
      (∀ r s, rowGet r "quantity" = some s → (normalizeTrade r).quantity = jsParseFloat s) ∧
      (∀ r s, rowGet r "trade_price" = some s →
        (normalizeTrade r).trade_price = jsParseFloat s) ∧
      (∀ r, present (rowGet r "trader") = false → (normalizeTrade r).trader = "Unknown") ∧
      (∀ r, present (rowGet r "currency") = false → (normalizeTrade r).currency = "USD") :=
  c7_uploadTrades_partition _ _ (by decide)

/-! ## Claim C6: the validation rules -/

/-- Claim-side rule: the field is present (a non-empty string, matching
the source's truthiness test). -/
def rulePresent (r : Row) (field : String) : Prop :=
  ∃ s, rowGet r field = some s ∧ s ≠ ""

/-- Claim-side rule: `side`, after uppercasing, is exactly `BUY` or
`SELL`. -/
def ruleSideValid (r : Row) : Prop :=
  ∃ s, rowGet r "side" = some s ∧ (jsToUpper s = "BUY" ∨ jsToUpper s = "SELL")

/-- Claim-side rule (amended): the field is present and `parseFloat`
yields a non-NaN value.  The original claim demanded a *finite* number;
the code's `isNaN(parseFloat(...))` check also lets the infinite values
through, see the counterexample. -/
def ruleNumeric (r : Row) (field : String) : Prop :=
  ∃ s, rowGet r field = some s ∧ s ≠ "" ∧ (jsParseFloat s).isNaN = false

theorem rulePresent_iff (r : Row) (f : String) :
    rulePresent r f ↔ present (rowGet r f) = true := by
  cases h : rowGet r f with
  | none => simp [present, rulePresent, h]
  | some s =>
    simp only [present, rulePresent, h, Option.some.injEq, Bool.not_eq_true']
    constructor
    · rintro ⟨s', rfl, hs⟩
      exact Bool.eq_false_iff.mpr (fun he => hs ((String.isEmpty_iff s).mp he))
    · intro he
      refine ⟨s, rfl, fun hs => ?_⟩
      rw [(String.isEmpty_iff s).mpr hs] at he
      simp at he

theorem ruleSideValid_iff (r : Row) :
    ¬ ruleSideValid r ↔
      (match rowGet r "side" with
       | none => true
       | some s => s.isEmpty || !(["BUY", "SELL"].contains (jsToUpper s))) = true := by
  cases h : rowGet r "side" with
  | none => simp [ruleSideValid, h]
  | some s =>
    by_cases hs : s = ""
    · subst hs
      simp [ruleSideValid, h]
      decide
    · have hse : s.isEmpty = false :=
        Bool.eq_false_iff.mpr (fun he => hs ((String.isEmpty_iff s).mp he))
      simp [ruleSideValid, h, hse, List.elem_iff]

theorem ruleNumeric_iff (r : Row) (f : String) :
    ¬ ruleNumeric r f ↔
      (match rowGet r f with
       | none => true
       | some s => s.isEmpty || (jsParseFloat s).isNaN) = true := by
  cases h : rowGet r f with
  | none => simp [ruleNumeric, h]
  | some s =>
    by_cases hs : s = ""
    · subst hs
      simp [ruleNumeric, h]
      exact Or.inl rfl
    · have hse : s.isEmpty = false :=
        Bool.eq_false_iff.mpr (fun he => hs ((String.isEmpty_iff s).mp he))
      simp [ruleNumeric, h, hs, hse]

instance (r : Row) (f : String) : Decidable (rulePresent r f) :=
  decidable_of_iff _ (rulePresent_iff r f).symm

instance (r : Row) : Decidable (ruleSideValid r) :=
  decidable_of_iff (¬ ((match rowGet r "side" with
      | none => true
      | some s => s.isEmpty || !(["BUY", "SELL"].contains (jsToUpper s))) = true))
    (by rw [← ruleSideValid_iff]; exact not_not)

instance (r : Row) (f : String) : Decidable (ruleNumeric r f) :=
  decidable_of_iff (¬ ((match rowGet r f with
      | none => true
      | some s => s.isEmpty || (jsParseFloat s).isNaN) = true))
    (by rw [← ruleNumeric_iff]; exact not_not)

theorem mem_ite_singleton {c : Prop} [Decidable c] {e x : String} :
    (x ∈ (if c then [e] else ([] : List String))) ↔ (c ∧ x = e) := by
  split
  · simp [*]
  · simp [*]

theorem ite_singleton_eq_nil {c : Prop} [Decidable c] {e : String} :
    ((if c then [e] else ([] : List String)) = []) ↔ ¬ c := by
  split
  · simp [*]
  · simp [*]

theorem ite_singleton_sublist {c : Prop} [Decidable c] (e : String) :
    (if c then [e] else ([] : List String)).Sublist [e] := by
  split
  · exact List.Sublist.refl _
  · simp

theorem validateTrade_errors_eq (r : Row) :
    (validateTrade r).errors =
      (if ¬ rulePresent r "trade_id" then ["trade_id is required"] else []) ++
      (if ¬ rulePresent r "trade_date" then ["trade_date is required"] else []) ++
      (if ¬ rulePresent r "instrument" then ["instrument is required"] else []) ++
      (if ¬ ruleSideValid r then ["side must be BUY or SELL"] else []) ++
      (if ¬ ruleNumeric r "quantity" then ["quantity must be a valid number"] else []) ++
      (if ¬ ruleNumeric r "trade_price" then ["trade_price must be a valid number"] else []) := by
  have h1 : (¬ rulePresent r "trade_id") ↔ ((!present (rowGet r "trade_id")) = true) := by
    rw [rulePresent_iff]
    simp
  have h2 : (¬ rulePresent r "trade_date") ↔ ((!present (rowGet r "trade_date")) = true) := by
    rw [rulePresent_iff]
    simp
  have h3 : (¬ rulePresent r "instrument") ↔ ((!present (rowGet r "instrument")) = true) := by
    rw [rulePresent_iff]
    simp
  simp only [validateTrade]
  rw [show (if ¬ rulePresent r "trade_id" then ["trade_id is required"]
      else ([] : List String)) =
      (if (!present (rowGet r "trade_id")) = true then ["trade_id is required"] else [])
    from if_congr h1 rfl rfl]
  rw [show (if ¬ rulePresent r "trade_date" then ["trade_date is required"]
      else ([] : List String)) =
      (if (!present (rowGet r "trade_date")) = true then ["trade_date is required"] else [])
    from if_congr h2 rfl rfl]
  rw [show (if ¬ rulePresent r "instrument" then ["instrument is required"]
      else ([] : List String)) =
      (if (!present (rowGet r "instrument")) = true then ["instrument is required"] else [])
    from if_congr h3 rfl rfl]
  rw [show (if ¬ ruleSideValid r then ["side must be BUY or SELL"]
      else ([] : List String)) =
      (if (match rowGet r "side" with
           | none => true
           | some s => s.isEmpty || !(["BUY", "SELL"].contains (jsToUpper s))) = true
       then ["side must be BUY or SELL"] else [])
    from if_congr (ruleSideValid_iff r) rfl rfl]
  rw [show (if ¬ ruleNumeric r "quantity" then ["quantity must be a valid number"]
      else ([] : List String)) =
      (if (match rowGet r "quantity" with
           | none => true
           | some s => s.isEmpty || (jsParseFloat s).isNaN) = true
       then ["quantity must be a valid number"] else [])
    from if_congr (ruleNumeric_iff r "quantity") rfl rfl]
  rw [show (if ¬ ruleNumeric r "trade_price" then ["trade_price must be a valid number"]
      else ([] : List String)) =
      (if (match rowGet r "trade_price" with
           | none => true
           | some s => s.isEmpty || (jsParseFloat s).isNaN) = true
       then ["trade_price must be a valid number"] else [])
    from if_congr (ruleNumeric_iff r "trade_price") rfl rfl]

/-- C6 (amended): every raw row is checked against all six rules
independently; `valid` is the emptiness of the error list; each violated
rule contributes its error string exactly once (the list never repeats a
message), and the numeric rules demand a present field whose `parseFloat`
is non-NaN — the non-finite values `Infinity` / `-Infinity` are accepted,
which is the one deviation from the claim as written. -/
theorem c6_validateTrade_rules (r : Row) :
    ((validateTrade r).valid = true ↔
      rulePresent r "trade_id" ∧ rulePresent r "trade_date" ∧ rulePresent r "instrument" ∧
      ruleSideValid r ∧ ruleNumeric r "quantity" ∧ ruleNumeric r "trade_price") ∧
    ((validateTrade r).valid = (validateTrade r).errors.isEmpty) ∧
    ("trade_id is required" ∈ (validateTrade r).errors ↔ ¬ rulePresent r "trade_id") ∧
    ("trade_date is required" ∈ (validateTrade r).errors ↔ ¬ rulePresent r "trade_date") ∧
    ("instrument is required" ∈ (validateTrade r).errors ↔ ¬ rulePresent r "instrument") ∧
    ("side must be BUY or SELL" ∈ (validateTrade r).errors ↔ ¬ ruleSideValid r) ∧
    ("quantity must be a valid number" ∈ (validateTrade r).errors ↔
      ¬ ruleNumeric r "quantity") ∧
    ("trade_price must be a valid number" ∈ (validateTrade r).errors ↔
      ¬ ruleNumeric r "trade_price") ∧
    (validateTrade r).errors.Nodup := by
  refine ⟨?_, rfl, ?_, ?_, ?_, ?_, ?_, ?_, ?_⟩
  · show (validateTrade r).errors.isEmpty = true ↔ _
    rw [validateTrade_errors_eq, List.isEmpty_iff]
    simp only [List.append_eq_nil, ite_singleton_eq_nil, not_not]
    tauto
  · rw [validateTrade_errors_eq]
    simp [mem_ite_singleton]
  · rw [validateTrade_errors_eq]
    simp [mem_ite_singleton]
  · rw [validateTrade_errors_eq]
    simp [mem_ite_singleton]
  · rw [validateTrade_errors_eq]
    simp [mem_ite_singleton]
  · rw [validateTrade_errors_eq]
    simp [mem_ite_singleton]
  · rw [validateTrade_errors_eq]
    simp [mem_ite_singleton]
  · rw [validateTrade_errors_eq]
    have hsub : ((if ¬ rulePresent r "trade_id" then ["trade_id is required"] else []) ++
        (if ¬ rulePresent r "trade_date" then ["trade_date is required"] else []) ++
        (if ¬ rulePresent r "instrument" then ["instrument is required"] else []) ++
        (if ¬ ruleSideValid r then ["side must be BUY or SELL"] else []) ++
        (if ¬ ruleNumeric r "quantity" then ["quantity must be a valid number"] else []) ++
        (if ¬ ruleNumeric r "trade_price" then ["trade_price must be a valid number"]
          else [])).Sublist
        (["trade_id is required"] ++ ["trade_date is required"] ++
          ["instrument is required"] ++ ["side must be BUY or SELL"] ++
          ["quantity must be a valid number"] ++ ["trade_price must be a valid number"]) :=
      List.Sublist.append (List.Sublist.append (List.Sublist.append (List.Sublist.append
        (List.Sublist.append (ite_singleton_sublist _) (ite_singleton_sublist _))
        (ite_singleton_sublist _)) (ite_singleton_sublist _)) (ite_singleton_sublist _))
        (ite_singleton_sublist _)
    exact hsub.nodup (by decide)

/-- C6 counterexample: on a row whose `quantity` is the string
`Infinity`, `parseFloat` yields a non-finite number (so the claim's
"parseable as a finite number" rule is violated), yet `validateTrade`
reports the row fully valid with no error. -/
theorem c6_counterexample :
    validateTrade [("trade_id", some "T1"), ("trade_date", some "2024-01-01"),
        ("instrument", some "WTI"), ("side", some "SELL"), ("quantity", some "Infinity"),
        ("trade_price", some "1")] =
      { valid := true, errors := [] } ∧
    rowGet [("trade_id", some "T1"), ("trade_date", some "2024-01-01"),
        ("instrument", some "WTI"), ("side", some "SELL"), ("quantity", some "Infinity"),
        ("trade_price", some "1")] "quantity" = some "Infinity" ∧
    (jsParseFloat "Infinity").isFinite = false ∧
    (jsParseFloat "Infinity").isNaN = false := by
  refine ⟨?_, by decide, by decide, by decide⟩
  decide

/-! ## Claim C1: latest-price resolution and the MtM formula -/

/-- C1: for every trade in the filtered set, when at least one market
price matches the trade's instrument exactly, the valuation attaches
exactly one price — one with the maximum `price_date` among the matching
prices — and computes `mtm = (close_price - trade_price) * quantity`;
the formula never consults `side` (same result for BUY and SELL), and a
trade with no matching price is excluded (the `trades` output is exactly
the filtered list valued through `valueTrade`). -/
theorem c1_latest_price_mtm (st : Store) (f t i : Option String) (tr : Trade)
    (htr : tr ∈ pnlFilter st.trades f t i) :
    ((computePnL st f t i).trades =
      (pnlFilter st.trades f t i).filterMap (valueTrade st.market_prices)) ∧
    (st.market_prices.filter (fun q => q.instrument = some tr.instrument) ≠ [] →
      ∃ p, p ∈ st.market_prices.filter (fun q => q.instrument = some tr.instrument) ∧
        (∀ q ∈ st.market_prices.filter (fun q => q.instrument = some tr.instrument),
          strLeB (priceDateKey q) (priceDateKey p) = true) ∧
        valueTrade st.market_prices tr =
          some (ValuedTrade.mk tr p.close_price
            (JsFloat.mul (JsFloat.sub p.close_price tr.trade_price) tr.quantity))) ∧
    (st.market_prices.filter (fun q => q.instrument = some tr.instrument) = [] →
      valueTrade st.market_prices tr = none) ∧
    (∀ s, (valueTrade st.market_prices { tr with side := s }).map ValuedTrade.mtm =
      (valueTrade st.market_prices tr).map ValuedTrade.mtm) := by
  refine ⟨computePnL_trades st f t i, ?_, ?_, ?_⟩
  · intro hne
    rcases latestPriceFor_max hne with ⟨p, hlat, hmem, hmax⟩
    exact ⟨p, hmem, hmax, by simp [valueTrade, hlat]⟩
  · intro hnil
    simp [valueTrade, latestPriceFor_none hnil]
  · intro s
    have hsame : latestPriceFor st.market_prices { tr with side := s } =
        latestPriceFor st.market_prices tr := rfl
    simp only [valueTrade, hsame, Option.map_map]
    cases latestPriceFor st.market_prices tr <;> rfl

/-- The spec's worked valuation example: one trade at 75.50 for 1000
units, two candidate prices of which the later closes at 76.00. -/
def trC1 : Trade :=
  Trade.mk "T1" "2024-01-05" "Alice" "WTI-CRUDE" "BUY" (JsFloat.num 1000)
    (JsFloat.num 75.5) "USD"

/-- The price collection of the worked example. -/
def stC1 : Store :=
  Store.mk [trC1]
    [MarketPrice.mk (some "WTI-CRUDE") (some "2023-12-01") (JsFloat.num 70),
     MarketPrice.mk (some "WTI-CRUDE") (some "2024-01-01") (JsFloat.num 76)]

/-- C1 witness: on the worked example the valuation resolves a
maximum-date matching price and the claimed formula gives
`(76.00 - 75.50) * 1000 = 500.00`. -/
theorem c1_witness :
    (∃ p, p ∈ stC1.market_prices.filter (fun q => q.instrument = some trC1.instrument) ∧
        (∀ q ∈ stC1.market_prices.filter (fun q => q.instrument = some trC1.instrument),
          strLeB (priceDateKey q) (priceDateKey p) = true) ∧
        valueTrade stC1.market_prices trC1 =
          some (ValuedTrade.mk trC1 p.close_price
            (JsFloat.mul (JsFloat.sub p.close_price trC1.trade_price) trC1.quantity))) ∧
    JsFloat.mul (JsFloat.sub (JsFloat.num 76) (JsFloat.num 75.5)) (JsFloat.num 1000) =
      JsFloat.num 500 :=
  ⟨(c1_latest_price_mtm stC1 none none none trC1
      (by simp [pnlFilter, active, stC1])).2.1
      (by simp [stC1, trC1]),
   by
     simp only [JsFloat.sub, JsFloat.neg, JsFloat.add, JsFloat.mul]
     norm_num⟩

/-! ## Claim C5: pagination -/

theorem jsSlice_drop_take {α : Type} (l : List α) (start limit : ℤ)
    (hs : 0 ≤ start) (hl : 0 ≤ limit) :
    jsSlice l start (start + limit) = (l.drop start.toNat).take limit.toNat := by
  have h1 : ¬ start < 0 := by omega
  have h2 : ¬ start + limit < 0 := by omega
  have h3 : (start + limit).toNat = start.toNat + limit.toNat := by omega
  simp only [jsSlice, h1, h2, if_false, h3]
  by_cases hsl : start.toNat ≤ l.length
  · rw [min_eq_left hsl]
    refine List.take_eq_take.mpr ?_
    simp only [List.length_drop]
    omega
  · have hge : l.length ≤ start.toNat := by omega
    rw [min_eq_right hge, List.drop_length, List.drop_eq_nil_of_le hge]
    simp

theorem page_beyond_iff (total : ℕ) (page limit : ℤ) (hl : 1 ≤ limit) :
    (⌈(total : ℚ) / (limit : ℚ)⌉ < page ↔ (total : ℤ) ≤ (page - 1) * limit) := by
  have hl0 : (0 : ℚ) < (limit : ℚ) := by exact_mod_cast hl
  constructor
  · intro h
    have hle : ⌈(total : ℚ) / (limit : ℚ)⌉ ≤ page - 1 := by omega
    have := Int.ceil_le.mp hle
    rw [div_le_iff₀ hl0] at this
    exact_mod_cast this
  · intro h
    have : ((total : ℚ)) ≤ ((page - 1 : ℤ) : ℚ) * (limit : ℚ) := by exact_mod_cast h
    rw [← div_le_iff₀ hl0] at this
    have := Int.ceil_le.mpr this
    omega

/-- C5: the listing paginates the filtered, sorted trades by the slice
`[(page-1)*limit, (page-1)*limit + limit)`, reports
`{page, limit, total, totalPages = ceil(total/limit)}`, returns
`min(limit, total - start)` records, and returns an empty slice — with
no error — for every page beyond `totalPages`. -/
theorem c5_pagination (ts : List Trade) (f t i trd : Option String) (page limit : ℤ)
    (hp : 1 ≤ page) (hl : 1 ≤ limit) :
    ((listTrades ts f t i trd page limit).pagination =
      { page := page
        limit := limit
        total := (filterTrades ts f t i trd).length
        totalPages := ⌈((filterTrades ts f t i trd).length : ℚ) / (limit : ℚ)⌉ }) ∧
    ((listTrades ts f t i trd page limit).trades =
      ((sortTrades (filterTrades ts f t i trd)).drop ((page - 1) * limit).toNat).take
        limit.toNat) ∧
    ((listTrades ts f t i trd page limit).trades.length =
      min limit.toNat ((filterTrades ts f t i trd).length - ((page - 1) * limit).toNat)) ∧
    (page > ⌈((filterTrades ts f t i trd).length : ℚ) / (limit : ℚ)⌉ →
      (listTrades ts f t i trd page limit).trades = []) := by
  have hs0 : (0 : ℤ) ≤ (page - 1) * limit := mul_nonneg (by omega) (by omega)
  have hlen : (sortTrades (filterTrades ts f t i trd)).length =
      (filterTrades ts f t i trd).length :=
    (List.perm_insertionSort tradeLe _).length_eq
  refine ⟨?_, ?_, ?_, ?_⟩
  · simp [listTrades, Pagination.mk.injEq, hlen]
  · simp only [listTrades]
    rw [jsSlice_drop_take _ _ _ hs0 (by omega)]
  · simp only [listTrades]
    rw [jsSlice_length _ _ _ hs0 (by omega), hlen]
  · intro hpage
    have hge : ((filterTrades ts f t i trd).length : ℤ) ≤ (page - 1) * limit :=
      (page_beyond_iff _ page limit hl).mp hpage
    have hzero : (listTrades ts f t i trd page limit).trades.length = 0 := by
      simp only [listTrades]
      rw [jsSlice_length _ _ _ hs0 (by omega), hlen]
      omega
    exact List.length_eq_zero.mp hzero

/-- 45 stored trades for the pagination boundary example. -/
def tsC5 : List Trade :=
  List.replicate 45
    (Trade.mk "T1" "2024-01-01" "A" "WTI" "BUY" (JsFloat.num 1) (JsFloat.num 1) "USD")

/-- C5 witness: with `total = 45` and `limit = 20`, page 3 returns 5
records with `totalPages = 3`, and page 4 returns 0 records without
error. -/
theorem c5_witness :
    (listTrades tsC5 none none none none 3 20).trades.length = 5 ∧
    (listTrades tsC5 none none none none 4 20).trades = [] ∧
    (listTrades tsC5 none none none none 3 20).pagination.totalPages = 3 := by
  have h3 := c5_pagination tsC5 none none none none 3 20 (by norm_num) (by norm_num)
  have h4 := c5_pagination tsC5 none none none none 4 20 (by norm_num) (by norm_num)
  have hflt : (filterTrades tsC5 none none none none).length = 45 := by
    simp [filterTrades, active, tsC5]
  have hceil : ⌈(((filterTrades tsC5 none none none none).length : ℚ)) / ((20 : ℤ) : ℚ)⌉ =
      3 := by
    rw [hflt]
    refine le_antisymm (Int.ceil_le.mpr (by norm_num)) ?_
    rw [Int.le_ceil_iff]
    norm_num
  refine ⟨?_, ?_, ?_⟩
  · rw [h3.2.2.1, hflt]
    decide
  · refine h4.2.2.2 ?_
    rw [hceil]
    norm_num
  · rw [h3.1]
    exact hceil

/-! ## Claim C4: the mixed numeric/lexical trade sort -/

/-- The claim-side comparator relation: when stripping the non-digits of
both trade ids leaves a number on both sides, order by those numbers;
otherwise order the pair by lexical comparison of the full ids. -/
def specTradeLe (a b : Trade) : Prop :=
  if tradeIdDigits a ≠ [] ∧ tradeIdDigits b ≠ []
  then digitsToNat (tradeIdDigits a) ≤ digitsToNat (tradeIdDigits b)
  else strLeB a.trade_id b.trade_id = true

instance : DecidableRel specTradeLe := fun a b => by
  unfold specTradeLe
  infer_instance

theorem cmpStr_nonpos_iff (a b : String) : cmpStr a b ≤ 0 ↔ strLeB a b = true := by
  unfold cmpStr
  by_cases hlt : strLtB a b = true
  · simp only [hlt, if_true]
    exact ⟨fun _ => strLeB_iff_lt_or_eq.mpr (Or.inl hlt), fun _ => by norm_num⟩
  · by_cases heq : a = b
    · subst heq
      simp [hlt, strLeB_refl]
    · rw [if_neg hlt, if_neg heq]
      constructor
      · intro h
        norm_num at h
      · intro h
        rcases strLeB_iff_lt_or_eq.mp h with h' | h'
        · exact absurd h' hlt
        · exact absurd h' heq

theorem tradeLe_iff_spec (a b : Trade) : tradeLe a b ↔ specTradeLe a b := by
  unfold tradeLe tradeCmp specTradeLe
  by_cases h : tradeIdDigits a ≠ [] ∧ tradeIdDigits b ≠ []
  · have e1 : (tradeIdDigits a).isEmpty = false := by
      rcases hd : tradeIdDigits a with _ | _
      · exact absurd hd h.1
      · rfl
    have e2 : (tradeIdDigits b).isEmpty = false := by
      rcases hd : tradeIdDigits b with _ | _
      · exact absurd hd h.2
      · rfl
    rw [if_pos h]
    simp only [e1, e2, Bool.not_false, Bool.and_self, if_true]
    omega
  · have e0 : (!(tradeIdDigits a).isEmpty && !(tradeIdDigits b).isEmpty) = false := by
      rcases not_and_or.mp h with h' | h'
      · have : tradeIdDigits a = [] := not_ne_iff.mp h'
        simp [this]
      · have : tradeIdDigits b = [] := not_ne_iff.mp h'
        simp [this]
    rw [if_neg h]
    simp only [e0, Bool.false_eq_true, if_false]
    exact cmpStr_nonpos_iff a.trade_id b.trade_id

/-- C4: with full pagination the listing returns exactly the stable sort
of the filtered trades by the pairwise comparator described by the
claim: numeric ordering when both ids retain digits after stripping
non-digits, lexical ordering of the full ids otherwise — the choice made
per compared pair, not globally. -/
theorem c4_sort_comparator (ts : List Trade) (f t i trd : Option String) (L : ℤ)
    (hL : ((filterTrades ts f t i trd).length : ℤ) ≤ L) :
    ((listTrades ts f t i trd 1 L).trades =
      List.insertionSort specTradeLe (filterTrades ts f t i trd)) ∧
    ((listTrades ts f t i trd 1 L).trades).Perm (filterTrades ts f t i trd) ∧
    (∀ a b : Trade, tradeIdDigits a ≠ [] → tradeIdDigits b ≠ [] →
      (tradeLe a b ↔ digitsToNat (tradeIdDigits a) ≤ digitsToNat (tradeIdDigits b))) ∧
    (∀ a b : Trade, ¬ (tradeIdDigits a ≠ [] ∧ tradeIdDigits b ≠ []) →
      (tradeLe a b ↔ strLeB a.trade_id b.trade_id = true)) := by
  have htr : (listTrades ts f t i trd 1 L).trades =
      sortTrades (filterTrades ts f t i trd) := by
    simp only [listTrades]
    have h0 : ((1 : ℤ) - 1) * L = 0 := by ring
    rw [h0, zero_add]
    apply jsSlice_full
    have hpl : (sortTrades (filterTrades ts f t i trd)).length =
        (filterTrades ts f t i trd).length :=
      (List.perm_insertionSort tradeLe _).length_eq
    omega
  refine ⟨?_, ?_, ?_, ?_⟩
  · rw [htr]
    exact insertionSort_congr tradeLe specTradeLe tradeLe_iff_spec _
  · rw [htr]
    exact List.perm_insertionSort tradeLe _
  · intro a b ha hb
    rw [tradeLe_iff_spec]
    unfold specTradeLe
    rw [if_pos ⟨ha, hb⟩]
  · intro a b h
    rw [tradeLe_iff_spec]
    unfold specTradeLe
    rw [if_neg h]

/-- Three trades exercising both comparator regimes: the pair
`T9` / `T10` compares numerically, every pair with `abc` lexically. -/
def tsC4 : List Trade :=
  [Trade.mk "T10" "2024-01-01" "A" "WTI" "BUY" (JsFloat.num 1) (JsFloat.num 1) "USD",
   Trade.mk "T9" "2024-01-01" "A" "WTI" "BUY" (JsFloat.num 1) (JsFloat.num 1) "USD",
   Trade.mk "abc" "2024-01-01" "A" "WTI" "BUY" (JsFloat.num 1) (JsFloat.num 1) "USD"]

/-- C4 witness: the listing orders `T9` before `T10` (numeric) and both
before `abc` (lexical fallback). -/
theorem c4_witness :
    ((listTrades tsC4 none none none none 1 3).trades =
      List.insertionSort specTradeLe (filterTrades tsC4 none none none none)) ∧
    ((listTrades tsC4 none none none none 1 3).trades).map Trade.trade_id =
      ["T9", "T10", "abc"] := by
  have h := c4_sort_comparator tsC4 none none none none 3 (by decide)
  refine ⟨h.1, ?_⟩
  rw [h.1]
  decide

/-! ## Claim C3: substring filters in the listing, exact match in P&L -/

/-- Claim-side predicate: `hay` case-insensitively contains `needle`. -/
def containsCI (hay needle : String) : Prop :=
  jsIncludes (jsToLower hay) (jsToLower needle) = true

instance (hay needle : String) : Decidable (containsCI hay needle) := by
  unfold containsCI
  infer_instance

theorem filterTrades_length_le (ts : List Trade) (f t i trd : Option String) :
    (filterTrades ts f t i trd).length ≤ ts.length := by
  unfold filterTrades
  cases hf : active f <;> cases ht : active t <;> cases hi : active i <;>
      cases htrd : active trd <;>
    simp only <;>
    (repeat refine le_trans (List.length_filter_le _ _) ?_) <;>
    exact le_rfl

theorem mem_filterTrades (ts : List Trade) (f t i trd : Option String) (tr : Trade) :
    tr ∈ filterTrades ts f t i trd ↔
      tr ∈ ts ∧
      (∀ s, active f = some s → strLeB s tr.trade_date = true) ∧
      (∀ s, active t = some s → strLeB tr.trade_date s = true) ∧
      (∀ s, active i = some s → containsCI tr.instrument s) ∧
      (∀ s, active trd = some s → containsCI tr.trader s) := by
  unfold filterTrades
  cases hf : active f <;> cases ht : active t <;> cases hi : active i <;>
      cases htrd : active trd <;>
    simp [List.mem_filter, containsCI, and_assoc] <;>
    tauto

theorem mem_pnlFilter (ts : List Trade) (f t i : Option String) (tr : Trade) :
    tr ∈ pnlFilter ts f t i ↔
      tr ∈ ts ∧
      (∀ s, active f = some s → strLeB s tr.trade_date = true) ∧
      (∀ s, active t = some s → strLeB tr.trade_date s = true) ∧
      (∀ s, active i = some s → tr.instrument = s) := by
  unfold pnlFilter
  cases hf : active f <;> cases ht : active t <;> cases hi : active i <;>
    simp [List.mem_filter, and_assoc] <;>
    tauto

/-- C3: the listing keeps a trade iff the lexical date bounds hold and
each given instrument / trader filter is a case-insensitive substring of
the trade's field, whereas the P&L pipeline applies the same date bounds
but keeps a trade under an instrument filter only on exact string
equality; `tradeCount` counts exactly that filtered set. -/
theorem c3_filter_asymmetry (ts : List Trade) (ps : List MarketPrice)
    (f t i trd : Option String) (tr : Trade) :
    (tr ∈ (listTrades ts f t i trd 1 (ts.length : ℤ)).trades ↔
      tr ∈ ts ∧
      (∀ s, active f = some s → strLeB s tr.trade_date = true) ∧
      (∀ s, active t = some s → strLeB tr.trade_date s = true) ∧
      (∀ s, active i = some s → containsCI tr.instrument s) ∧
      (∀ s, active trd = some s → containsCI tr.trader s)) ∧
    (tr ∈ pnlFilter ts f t i ↔
      tr ∈ ts ∧
      (∀ s, active f = some s → strLeB s tr.trade_date = true) ∧
      (∀ s, active t = some s → strLeB tr.trade_date s = true) ∧
      (∀ s, active i = some s → tr.instrument = s)) ∧
    ((computePnL (Store.mk ts ps) f t i).tradeCount = (pnlFilter ts f t i).length) := by
  refine ⟨?_, mem_pnlFilter ts f t i tr, computePnL_tradeCount _ f t i⟩
  have hfull : (listTrades ts f t i trd 1 (ts.length : ℤ)).trades =
      sortTrades (filterTrades ts f t i trd) := by
    simp only [listTrades]
    have h0 : ((1 : ℤ) - 1) * (ts.length : ℤ) = 0 := by ring
    rw [h0, zero_add]
    apply jsSlice_full
    have hpl : (sortTrades (filterTrades ts f t i trd)).length =
        (filterTrades ts f t i trd).length :=
      (List.perm_insertionSort tradeLe _).length_eq
    have hfl := filterTrades_length_le ts f t i trd
    omega
  rw [hfull]
  unfold sortTrades
  rw [(List.perm_insertionSort tradeLe _).mem_iff]
  exact mem_filterTrades ts f t i trd tr

/-- C3 witness: under the one-letter instrument filter `t`, the listing
keeps the `WTI` trade (case-insensitive substring) while the P&L filter
drops it (exact match only). -/
theorem c3_witness :
    (Trade.mk "T1" "2024-01-01" "A" "WTI" "BUY" (JsFloat.num 1) (JsFloat.num 1) "USD" ∈
        (listTrades [Trade.mk "T1" "2024-01-01" "A" "WTI" "BUY" (JsFloat.num 1)
          (JsFloat.num 1) "USD"] none none (some "t") none 1
          (([Trade.mk "T1" "2024-01-01" "A" "WTI" "BUY" (JsFloat.num 1)
            (JsFloat.num 1) "USD"] : List Trade).length : ℤ)).trades ↔
      Trade.mk "T1" "2024-01-01" "A" "WTI" "BUY" (JsFloat.num 1) (JsFloat.num 1) "USD" ∈
        [Trade.mk "T1" "2024-01-01" "A" "WTI" "BUY" (JsFloat.num 1) (JsFloat.num 1) "USD"] ∧
      (∀ s, active none = some s → strLeB s "2024-01-01" = true) ∧
      (∀ s, active none = some s → strLeB "2024-01-01" s = true) ∧
      (∀ s, active (some "t") = some s → containsCI "WTI" s) ∧
      (∀ s, active none = some s → containsCI "A" s)) ∧
    containsCI "WTI" "t" ∧
    ¬ ("WTI" = "t") :=
  ⟨(c3_filter_asymmetry [Trade.mk "T1" "2024-01-01" "A" "WTI" "BUY" (JsFloat.num 1)
      (JsFloat.num 1) "USD"] [] none none (some "t") none
      (Trade.mk "T1" "2024-01-01" "A" "WTI" "BUY" (JsFloat.num 1)
        (JsFloat.num 1) "USD")).1,
   by decide, by decide⟩

/-! ## Claim C2: the P&L aggregates -/

/-- Claim-side value: the JS sum of the mtm values of the valued trades
carrying the given trade date. -/
def dailyMtmSumJs (vts : List ValuedTrade) (d : String) : JsFloat :=
  jsSum ((vts.filter (fun v => v.trade.trade_date = d)).map (fun v => v.mtm))

theorem latestPriceFor_mem {prices : List MarketPrice} {t : Trade} {p : MarketPrice}
    (h : latestPriceFor prices t = some p) : p ∈ prices := by
  unfold latestPriceFor at h
  have hperm := List.perm_insertionSort priceGe
    (prices.filter (fun q => q.instrument = some t.instrument))
  cases hs : List.insertionSort priceGe
      (prices.filter (fun q => q.instrument = some t.instrument)) with
  | nil =>
    rw [hs] at h
    simp at h
  | cons q rest =>
    rw [hs] at h hperm
    simp only [List.head?_cons, Option.some.injEq] at h
    subst h
    exact (List.mem_filter.mp (hperm.mem_iff.mp (List.mem_cons_self _ _))).1

theorem valueTrade_mtm_finite {prices : List MarketPrice} {t : Trade} {v : ValuedTrade}
    (hp : ∀ p ∈ prices, p.close_price.isFinite = true)
    (hq : t.quantity.isFinite = true) (htp : t.trade_price.isFinite = true)
    (hv : valueTrade prices t = some v) : v.mtm.isFinite = true := by
  simp only [valueTrade, Option.map_eq_some'] at hv
  rcases hv with ⟨p, hlat, rfl⟩
  rcases isFinite_iff.mp (hp p (latestPriceFor_mem hlat)) with ⟨c, hc⟩
  rcases isFinite_iff.mp hq with ⟨q, hq'⟩
  rcases isFinite_iff.mp htp with ⟨tp, htp'⟩
  simp [hc, hq', htp', JsFloat.mul, JsFloat.sub, JsFloat.neg, JsFloat.add, JsFloat.isFinite]

theorem pnl_pairs_eq (st : Store) (f t i : Option String) :
    (pnlFilter st.trades f t i).filterMap
      (fun tr => (valueTrade st.market_prices tr).map (fun v => (tr.trade_date, v.mtm))) =
    ((pnlFilter st.trades f t i).filterMap (valueTrade st.market_prices)).map
      (fun v => (v.trade.trade_date, v.mtm)) := by
  rw [List.map_filterMap]
  apply List.filterMap_congr
  intro tr _
  cases hv : valueTrade st.market_prices tr with
  | none => rfl
  | some v => simp [valueTrade_trade hv]

theorem pnl_mtms_eq (st : Store) (f t i : Option String) :
    (pnlFilter st.trades f t i).filterMap
      (fun tr => (valueTrade st.market_prices tr).map ValuedTrade.mtm) =
    ((pnlFilter st.trades f t i).filterMap (valueTrade st.market_prices)).map
      ValuedTrade.mtm := by
  rw [List.map_filterMap]

theorem ratSumAt_map_valued (vts : List ValuedTrade) (k : String) :
    ratSumAt (vts.map (fun v => (v.trade.trade_date, v.mtm))) k =
      ((vts.filter (fun v => v.trade.trade_date = k)).map (fun v => v.mtm.toQ)).sum := by
  unfold ratSumAt
  rw [List.filter_map, List.map_map]
  rfl

theorem daily_foldl_spec (vts : List ValuedTrade)
    (hfin : ∀ v ∈ vts, v.mtm.isFinite = true) :
    (∀ pr ∈ List.foldl (fun m p => dailyBump m p.1 p.2) []
        (vts.map (fun v => (v.trade.trade_date, v.mtm))),
      pr.2 = JsFloat.num (((vts.filter (fun v => v.trade.trade_date = pr.1)).map
        (fun v => v.mtm.toQ)).sum)) ∧
    (∀ k, (∃ pr ∈ List.foldl (fun m p => dailyBump m p.1 p.2) []
        (vts.map (fun v => (v.trade.trade_date, v.mtm))), pr.1 = k) ↔
      ∃ v ∈ vts, v.trade.trade_date = k) ∧
    (alKeys (List.foldl (fun m p => dailyBump m p.1 p.2) []
      (vts.map (fun v => (v.trade.trade_date, v.mtm))))).Nodup := by
  have hpsfin : ∀ e ∈ vts.map (fun v => (v.trade.trade_date, v.mtm)),
      e.2.isFinite = true := by
    intro e he
    rcases List.mem_map.mp he with ⟨v, hv, rfl⟩
    exact hfin v hv
  have hnodup := alKeys_nodup_foldl (vts.map (fun v => (v.trade.trade_date, v.mtm))) []
    (by simp [alKeys])
  have hmaster : ∀ k, alGet (List.foldl (fun m p => dailyBump m p.1 p.2) []
      (vts.map (fun v => (v.trade.trade_date, v.mtm)))) k =
      if (vts.map (fun v => (v.trade.trade_date, v.mtm))).any (fun p => p.1 = k)
      then some (JsFloat.num (ratSumAt (vts.map (fun v => (v.trade.trade_date, v.mtm))) k))
      else none := by
    intro k
    have h := foldl_bump_alGet (vts.map (fun v => (v.trade.trade_date, v.mtm))) [] k hpsfin
      (by intro k0 v0 h0; simp [alGet] at h0)
    simpa [alGet] using h
  refine ⟨?_, ?_, hnodup⟩
  · intro pr hpr
    have hget : alGet (List.foldl (fun m p => dailyBump m p.1 p.2) []
        (vts.map (fun v => (v.trade.trade_date, v.mtm)))) pr.1 = some pr.2 :=
      alGet_of_mem_nodup hnodup hpr
    rw [hmaster pr.1] at hget
    by_cases hany : (vts.map (fun v => (v.trade.trade_date, v.mtm))).any
        (fun p => p.1 = pr.1) = true
    · rw [if_pos hany] at hget
      have := (Option.some.inj hget).symm
      rw [this, ratSumAt_map_valued]
    · rw [if_neg hany] at hget
      simp at hget
  · intro k
    constructor
    · rintro ⟨pr, hpr, rfl⟩
      have hkey : pr.1 ∈ alKeys (List.foldl (fun m p => dailyBump m p.1 p.2) []
          (vts.map (fun v => (v.trade.trade_date, v.mtm)))) :=
        List.mem_map_of_mem Prod.fst hpr
      have hne : alGet (List.foldl (fun m p => dailyBump m p.1 p.2) []
          (vts.map (fun v => (v.trade.trade_date, v.mtm)))) pr.1 ≠ none :=
        fun h0 => ((alGet_none_iff _ _).mp h0) hkey
      rw [hmaster pr.1] at hne
      by_cases hany : (vts.map (fun v => (v.trade.trade_date, v.mtm))).any
          (fun p => p.1 = pr.1) = true
      · rcases List.any_eq_true.mp hany with ⟨p, hp, hpk⟩
        rcases List.mem_map.mp hp with ⟨v, hv, rfl⟩
        exact ⟨v, hv, by simpa using hpk⟩
      · rw [if_neg hany] at hne
        exact absurd rfl hne
    · rintro ⟨v, hv, hd⟩
      have hany : (vts.map (fun v => (v.trade.trade_date, v.mtm))).any
          (fun p => p.1 = k) = true := by
        apply List.any_eq_true.mpr
        exact ⟨(v.trade.trade_date, v.mtm), List.mem_map_of_mem _ hv, by simp [hd]⟩
      have hsome : alGet (List.foldl (fun m p => dailyBump m p.1 p.2) []
          (vts.map (fun v => (v.trade.trade_date, v.mtm)))) k =
          some (JsFloat.num (ratSumAt (vts.map (fun v => (v.trade.trade_date, v.mtm))) k)) := by
        rw [hmaster k, if_pos hany]
      have hkey : k ∈ alKeys (List.foldl (fun m p => dailyBump m p.1 p.2) []
          (vts.map (fun v => (v.trade.trade_date, v.mtm)))) := by
        by_contra hk
        rw [(alGet_none_iff _ _).mpr hk] at hsome
        simp at hsome
      rcases List.mem_map.mp hkey with ⟨pr, hpr, hfst⟩
      exact ⟨pr, hpr, hfst⟩

/-- C2 (amended): when every stored close price and every trade's
quantity and price are finite numbers, `computePnL` returns `totalPnL`
equal to the sum of the mtm values of the valued trades, `dailyPnL` as
`{date, pnl}` pairs — one per distinct trade date of a valued trade,
each `pnl` the sum of the mtm of the valued trades with that date,
ordered ascending by date — `tradeCount` the size of the filtered input,
`valuedTradeCount` the number of trades with a resolved price, and a
`trades` array of exactly the valued trades merged with their price and
mtm.  (Without the finiteness proviso the daily sums can diverge from
the true sum: a NaN running subtotal is reset to `0` by the `|| 0`
read-back before the next mtm of the same date is added, see the
counterexample.) -/
theorem c2_pnl_aggregates (st : Store) (f t i : Option String)
    (hp : ∀ p ∈ st.market_prices, p.close_price.isFinite = true)
    (ht : ∀ tr ∈ st.trades, tr.quantity.isFinite = true ∧ tr.trade_price.isFinite = true) :
    ((computePnL st f t i).trades =
      (pnlFilter st.trades f t i).filterMap (valueTrade st.market_prices)) ∧
    ((computePnL st f t i).tradeCount = (pnlFilter st.trades f t i).length) ∧
    ((computePnL st f t i).valuedTradeCount = (computePnL st f t i).trades.length) ∧
    ((computePnL st f t i).totalPnL =
      jsSum (((computePnL st f t i).trades).map ValuedTrade.mtm)) ∧
    (∀ e ∈ (computePnL st f t i).dailyPnL,
      e.pnl = dailyMtmSumJs (computePnL st f t i).trades e.date) ∧
    (∀ d, (∃ e ∈ (computePnL st f t i).dailyPnL, e.date = d) ↔
      (∃ v ∈ (computePnL st f t i).trades, v.trade.trade_date = d)) ∧
    (((computePnL st f t i).dailyPnL.map DailyPnL.date).Nodup) ∧
    List.Sorted dailyAsc (computePnL st f t i).dailyPnL := by
  have htrades := computePnL_trades st f t i
  have hvfin : ∀ v ∈ (pnlFilter st.trades f t i).filterMap (valueTrade st.market_prices),
      v.mtm.isFinite = true := by
    intro v hv
    rcases List.mem_filterMap.mp hv with ⟨tr, htr, hval⟩
    have htr' := ((mem_pnlFilter st.trades f t i tr).mp htr).1
    exact valueTrade_mtm_finite hp (ht tr htr').1 (ht tr htr').2 hval
  have hD : (computePnL st f t i).dailyPnL = List.insertionSort dailyAsc
      ((List.foldl (fun m p => dailyBump m p.1 p.2) []
        (((pnlFilter st.trades f t i).filterMap (valueTrade st.market_prices)).map
          (fun v => (v.trade.trade_date, v.mtm)))).map (fun p => DailyPnL.mk p.1 p.2)) := by
    rw [computePnL_dailyPnL, pnl_pairs_eq]
  rcases daily_foldl_spec ((pnlFilter st.trades f t i).filterMap
      (valueTrade st.market_prices)) hvfin with ⟨hentry, hdates, hnodup⟩
  have hpermD := List.perm_insertionSort dailyAsc
    ((List.foldl (fun m p => dailyBump m p.1 p.2) []
      (((pnlFilter st.trades f t i).filterMap (valueTrade st.market_prices)).map
        (fun v => (v.trade.trade_date, v.mtm)))).map (fun p => DailyPnL.mk p.1 p.2))
  refine ⟨htrades, computePnL_tradeCount st f t i, ?_, ?_, ?_, ?_, ?_, ?_⟩
  · rw [computePnL_valuedTradeCount, htrades]
  · rw [computePnL_totalPnL, htrades, pnl_mtms_eq]
  · intro e he
    rw [hD] at he
    rcases List.mem_map.mp (hpermD.mem_iff.mp he) with ⟨pr, hpr, rfl⟩
    have hval := hentry pr hpr
    rw [htrades]
    show pr.2 = dailyMtmSumJs _ pr.1
    rw [hval, dailyMtmSumJs, jsSum_num (by
      intro w hw
      rcases List.mem_map.mp hw with ⟨v, hv, rfl⟩
      exact hvfin v (List.mem_of_mem_filter hv))]
    rw [List.map_map]
    rfl
  · intro d
    rw [hD, htrades]
    constructor
    · rintro ⟨e, he, rfl⟩
      rcases List.mem_map.mp (hpermD.mem_iff.mp he) with ⟨pr, hpr, rfl⟩
      exact (hdates pr.1).mp ⟨pr, hpr, rfl⟩
    · intro hv
      rcases (hdates d).mpr hv with ⟨pr, hpr, rfl⟩
      exact ⟨DailyPnL.mk pr.1 pr.2,
        hpermD.mem_iff.mpr (List.mem_map_of_mem _ hpr), rfl⟩
  · rw [hD]
    have hpermDates := hpermD.map DailyPnL.date
    rw [(hpermDates.nodup_iff)]
    rw [List.map_map]
    exact hnodup
  · rw [hD]
    exact List.sorted_insertionSort dailyAsc _

/-- Two same-day trades, the first valued against an unparseable (NaN)
close price, the second against a finite one. -/
def stC2 : Store :=
  Store.mk
    [Trade.mk "T1" "2024-01-02" "A" "A" "BUY" (JsFloat.num 1) (JsFloat.num 0) "USD",
     Trade.mk "T2" "2024-01-02" "A" "B" "BUY" (JsFloat.num 1) (JsFloat.num 0) "USD"]
    [MarketPrice.mk (some "A") (some "2024-01-01") JsFloat.nan,
     MarketPrice.mk (some "B") (some "2024-01-01") (JsFloat.num 5)]

/-- C2 counterexample: with a NaN mtm and a finite mtm on the same trade
date, the reported daily pnl is `5` while the sum of that date's mtm
values (and `totalPnL`) is NaN — the `(dailyPnL[date] || 0)` read-back
silently resets the NaN subtotal, so the claim's "each pnl is the sum of
mtm over valued trades with that trade_date" fails as stated. -/
theorem c2_counterexample :
    (computePnL stC2 none none none).dailyPnL =
      [DailyPnL.mk "2024-01-02" (JsFloat.num 5)] ∧
    dailyMtmSumJs (computePnL stC2 none none none).trades "2024-01-02" = JsFloat.nan ∧
    JsFloat.num 5 ≠ JsFloat.nan ∧
    (computePnL stC2 none none none).totalPnL = JsFloat.nan := by
  refine ⟨?_, ?_, by simp, ?_⟩
  · simp [computePnL, pnlFilter, active, stC2, pnlStep, valueTrade, latestPriceFor,
      priceDateKey, dailyBump, jsOr, JsFloat.truthy, JsFloat.add, JsFloat.sub, JsFloat.neg,
      JsFloat.mul, List.insertionSort, List.orderedInsert]
  · simp [computePnL, pnlFilter, active, stC2, pnlStep, valueTrade, latestPriceFor,
      priceDateKey, dailyBump, jsOr, JsFloat.truthy, JsFloat.add, JsFloat.sub, JsFloat.neg,
      JsFloat.mul, List.insertionSort, List.orderedInsert, dailyMtmSumJs, jsSum]
  · simp [computePnL, pnlFilter, active, stC2, pnlStep, valueTrade, latestPriceFor,
      priceDateKey, dailyBump, jsOr, JsFloat.truthy, JsFloat.add, JsFloat.sub, JsFloat.neg,
      JsFloat.mul, List.insertionSort, List.orderedInsert]

/-- A one-trade, one-price store with finite values. -/
def stC2w : Store :=
  Store.mk
    [Trade.mk "T1" "2024-01-02" "A" "WTI" "BUY" (JsFloat.num 2) (JsFloat.num 3) "USD"]
    [MarketPrice.mk (some "WTI") (some "2024-01-01") (JsFloat.num 5)]

/-- C2 witness: the amended aggregate equations applied to a concrete
finite store. -/
theorem c2_witness :
    ((computePnL stC2w none none none).totalPnL =
      jsSum (((computePnL stC2w none none none).trades).map ValuedTrade.mtm)) ∧
    (∀ e ∈ (computePnL stC2w none none none).dailyPnL,
      e.pnl = dailyMtmSumJs (computePnL stC2w none none none).trades e.date) ∧
    List.Sorted dailyAsc (computePnL stC2w none none none).dailyPnL :=
  ⟨(c2_pnl_aggregates stC2w none none none (by decide) (by decide)).2.2.2.1,
   (c2_pnl_aggregates stC2w none none none (by decide) (by decide)).2.2.2.2.1,
   (c2_pnl_aggregates stC2w none none none (by decide) (by decide)).2.2.2.2.2.2.2⟩

end ETRM
